import Mathlib

/-!
# heapmap: a fixed-capacity max-heap with a key index

A shallow embedding of `heapmap.go`.

* Go `int` values (sizes, indices, loop counters) are `Int`; priorities are `Int`
  and the one addition the program performs on them (`node.Priority += priority`)
  wraps to 64 bits (`wrap64`).
* A `*Node` is `Option Nat`: `none` is `nil`, `some a` is the address `a` of a
  record of the node memory `mem`.  `&Node{...}` allocates the next address.
  The heap slot and the index map hold the same address, so a priority written
  through one is read through the other.
* `[]*Node` is a list of pointers, `map[string]*Node` an association list.
* A run-time panic (index out of range, nil dereference) is a `Fault`; the
  values a method returns through Go's `error` are `Error`s.
* The mutex is not modelled: every method is one atomic step of a sequential
  program.
* The recursion of `adjustHeap` and the loop of `insert` take a fuel argument;
  the methods pass a fuel that is proved sufficient.
-/

set_option autoImplicit false

namespace heapmap

/-- The record `Node` of the source. -/
structure Node where
  Priority : Int
  Key : String
  deriving DecidableEq, Repr

/-- A `*Node`: `none` is `nil`, `some a` the address of `mem[a]`. -/
abbrev Ptr := Option Nat

/-- The three `fmt.Errorf` values of the source. -/
inductive Error where
  | heapFull
  | heapEmpty
  | keyNotInHeap
  deriving DecidableEq, Repr

/-- Run-time panics of the Go program, and the two artefacts of the model
(an address outside the node memory, fuel exhausted). -/
inductive Fault where
  | indexOutOfRange
  | nilDereference
  | badAddress
  | outOfFuel
  deriving DecidableEq, Repr

/-- The struct `heapMap` (without its mutex) together with the node memory. -/
structure heapMap where
  mem : List Node
  heap : List Ptr
  hash : List (String × Nat)
  size : Int
  deriving DecidableEq, Repr

/-- Two's-complement wrap of a 64-bit Go `int`. -/
def wrap64 (x : Int) : Int := (x + 2 ^ 63) % 2 ^ 64 - 2 ^ 63

/-- Go's `/` on `int` truncates toward zero. -/
def goDiv (a b : Int) : Int := Int.tdiv a b

/-- Slice read `heap[i]` with Go's bounds check. -/
def heapGet (heap : List Ptr) (i : Int) : Except Fault Ptr :=
  if 0 ≤ i ∧ i < heap.length then .ok (heap.getD i.toNat none)
  else .error .indexOutOfRange

/-- Slice write `heap[i] = p` with Go's bounds check. -/
def heapSet (heap : List Ptr) (i : Int) (p : Ptr) : Except Fault (List Ptr) :=
  if 0 ≤ i ∧ i < heap.length then .ok (heap.set i.toNat p)
  else .error .indexOutOfRange

/-- Dereference of a `*Node`. -/
def deref (mem : List Node) (p : Ptr) : Except Fault Node :=
  match p with
  | none => .error .nilDereference
  | some a =>
    match mem.get? a with
    | some n => .ok n
    | none => .error .badAddress

/-- The expression `hm.heap[i].Priority`. -/
def priorityAt (mem : List Node) (heap : List Ptr) (i : Int) : Except Fault Int := do
  let p ← heapGet heap i
  let n ← deref mem p
  pure n.Priority

/-- The parallel assignment `hm.heap[i], hm.heap[j] = hm.heap[j], hm.heap[i]`. -/
def heapSwap (heap : List Ptr) (i j : Int) : Except Fault (List Ptr) := do
  let a ← heapGet heap j
  let b ← heapGet heap i
  let h1 ← heapSet heap i a
  heapSet h1 j b

/-- Map lookup `hm.hash[key]` (the comma-ok form). -/
def hashGet (hash : List (String × Nat)) (key : String) : Option Nat :=
  match hash with
  | [] => none
  | (k, a) :: rest => if k = key then some a else hashGet rest key

/-- Map store `hm.hash[key] = node`. -/
def hashSet (hash : List (String × Nat)) (key : String) (a : Nat) : List (String × Nat) :=
  match hash with
  | [] => [(key, a)]
  | (k, b) :: rest => if k = key then (k, a) :: rest else (k, b) :: hashSet rest key a

/-- `NewHeapMap(size)`: a slice of `size` nil pointers, an empty map, size 0.
`make` panics on a negative length, so the capacity is a natural number. -/
def NewHeapMap (size : Nat) : heapMap :=
  { mem := [], heap := List.replicate size none, hash := [], size := 0 }

/-- The body of `adjustHeap(pos, max)` on the slice; `fuel` bounds the recursion depth. -/
def adjustHeapAux (mem : List Node) : Nat → List Ptr → Int → Int → Except Fault (List Ptr)
  | 0, _, _, _ => .error .outOfFuel
  | fuel + 1, heap, pos, max =>
    let left := 2 * pos + 1
    let right := 2 * pos + 2
    if left < max ∧ right < max then do
      let pl ← priorityAt mem heap left
      let pr ← priorityAt mem heap right
      let maxIdx := if pl > pr then left else right
      let pm ← priorityAt mem heap maxIdx
      let pp ← priorityAt mem heap pos
      if pm > pp then do
        let heap1 ← heapSwap heap pos maxIdx
        adjustHeapAux mem fuel heap1 maxIdx max
      else pure heap
    else if left < max then do
      let maxIdx := left
      let pm ← priorityAt mem heap maxIdx
      let pp ← priorityAt mem heap pos
      if pm > pp then do
        let heap1 ← heapSwap heap pos maxIdx
        adjustHeapAux mem fuel heap1 maxIdx max
      else pure heap
    else pure heap

/-- The method `adjustHeap(pos, max)`.  Every recursive call moves to a child
index below `max`, so `max + 1` calls suffice. -/
def adjustHeap (hm : heapMap) (pos max : Int) : Except Fault heapMap := do
  let heap1 ← adjustHeapAux hm.mem (max.toNat + 1) hm.heap pos max
  pure { hm with heap := heap1 }

/-- The `for` loop of `insert`, entered with the current values of `cur` and `parent`. -/
def insertLoop (mem : List Node) : Nat → List Ptr → Int → Int → Except Fault (List Ptr)
  | 0, _, _, _ => .error .outOfFuel
  | fuel + 1, heap, cur, parent =>
    if cur ≥ 0 then do
      let pc ← priorityAt mem heap cur
      let pp ← priorityAt mem heap parent
      if pc > pp then do
        let heap1 ← heapSwap heap cur parent
        insertLoop mem fuel heap1 parent (goDiv (parent - 1) 2)
      else pure heap
    else pure heap

/-- The method `insert(node)`: store at index `size`, sift up, increment `size`. -/
def insert (hm : heapMap) (node : Ptr) : Except Fault heapMap := do
  let heap1 ← heapSet hm.heap hm.size node
  let cur := hm.size
  let parent := goDiv (cur - 1) 2
  let heap2 ← insertLoop hm.mem (hm.size.toNat + 2) heap1 cur parent
  pure { hm with heap := heap2, size := hm.size + 1 }

/-- The method `pop()`: returns the removed root pointer and the error. -/
def pop (hm : heapMap) : Except Fault ((Ptr × Option Error) × heapMap) :=
  if hm.size = 0 then .ok ((none, some .heapEmpty), hm)
  else do
    let temp ← heapGet hm.heap 0
    let last ← heapGet hm.heap (hm.size - 1)
    let heap1 ← heapSet hm.heap 0 last
    let hm1 : heapMap := { hm with heap := heap1, size := hm.size - 1 }
    let hm2 ← adjustHeap hm1 0 hm1.size
    pure ((temp, none), hm2)

/-- The first loop of `GetTopNodes`: `todo` iterations remain, `temp` and `err`
are the local variables. -/
def popLoop : Nat → heapMap → List Ptr → Except Fault ((List Ptr × Option Error) × heapMap)
  | 0, hm, temp => .ok ((temp, none), hm)
  | todo + 1, hm, temp => do
    let ((node, err), hm1) ← pop hm
    match err with
    | none => popLoop todo hm1 (temp ++ [node])
    | some e => pure ((temp, some e), hm1)

/-- The second loop of `GetTopNodes`: `insert(temp[i])` for `i` from
`len(temp) - 1` down to `0`. -/
def reinsertLoop (hm : heapMap) (temp : List Ptr) : Except Fault heapMap :=
  temp.reverse.foldlM insert hm

/-- The method `GetTopNodes(numNodess)`. -/
def GetTopNodes (hm : heapMap) (numNodess : Int) :
    Except Fault ((List Ptr × Option Error) × heapMap) := do
  let ((temp, err), hm1) ← popLoop numNodess.toNat hm []
  let hm2 ← reinsertLoop hm1 temp
  pure ((temp, err), hm2)

/-- The method `Insert(key, priority)`. -/
def Insert (hm : heapMap) (key : String) (priority : Int) :
    Except Fault (Option Error × heapMap) :=
  match hashGet hm.hash key with
  | some a =>
    match hm.mem.get? a with
    | none => .error .badAddress
    | some node => do
      let mem1 := hm.mem.set a { node with Priority := wrap64 (node.Priority + priority) }
      let hm1 ← adjustHeap { hm with mem := mem1 } 0 hm.size
      pure (none, hm1)
  | none =>
    if hm.size = (hm.heap.length : Int) - 1 then .ok (some .heapFull, hm)
    else do
      let a := hm.mem.length
      let mem1 := hm.mem ++ [{ Priority := priority, Key := key }]
      let hm1 ← insert { hm with mem := mem1 } (some a)
      pure (none, { hm1 with hash := hashSet hm1.hash key a })

/-- The method `GetPriority(key)`. -/
def GetPriority (hm : heapMap) (key : String) : Except Fault (Int × Option Error) :=
  match hashGet hm.hash key with
  | some a =>
    match hm.mem.get? a with
    | none => .error .badAddress
    | some node => .ok (node.Priority, none)
  | none => .ok (0, some .keyNotInHeap)

/-- The method `Top()`. -/
def Top (hm : heapMap) : Except Fault (Ptr × Option Error) :=
  if hm.size = 0 then .ok (none, some .heapEmpty)
  else do
    let p ← heapGet hm.heap 0
    pure (p, none)

/-! ## Specification-level notions

The definitions below are not part of the program.  They are the vocabulary of the
theorems: the priority read through a pointer, validity of the live prefix, and the
panic-free reading of the two sifting loops on a valid prefix (`adjustHeapAux_eq`
and `insertLoop_eq` prove that the program computes exactly these). -/

/-- The priority read through a pointer (`0` for `nil` or an unallocated address). -/
def prioOf (mem : List Node) (p : Ptr) : Int :=
  match p with
  | none => 0
  | some a =>
    match mem.get? a with
    | some n => n.Priority
    | none => 0

/-- A non-nil pointer to an allocated record. -/
def ValidPtr (mem : List Node) (p : Ptr) : Prop := ∃ a, p = some a ∧ a < mem.length

/-- Exchange of the slots `i` and `j` of a slice. -/
def swapN (l : List Ptr) (i j : Nat) : List Ptr :=
  (l.set i (l.getD j none)).set j (l.getD i none)

/-- The priority of the entry in slot `i`. -/
def keyAt (mem : List Node) (l : List Ptr) (i : Nat) : Int := prioOf mem (l.getD i none)

/-- The first `n` slots exist and hold valid pointers. -/
def LiveOK (mem : List Node) (l : List Ptr) (n : Nat) : Prop :=
  n ≤ l.length ∧ ∀ i, i < n → ValidPtr mem (l.getD i none)

/-- What `adjustHeapAux` computes on a valid prefix (no bounds checks, no dereference
failures). -/
def siftDown (mem : List Node) : Nat → List Ptr → Nat → Nat → List Ptr
  | 0, l, _, _ => l
  | fuel + 1, l, pos, max =>
    if 2 * pos + 2 < max then
      let m := if keyAt mem l (2 * pos + 1) > keyAt mem l (2 * pos + 2) then 2 * pos + 1
               else 2 * pos + 2
      if keyAt mem l m > keyAt mem l pos then siftDown mem fuel (swapN l pos m) m max else l
    else if 2 * pos + 1 < max then
      if keyAt mem l (2 * pos + 1) > keyAt mem l pos then
        siftDown mem fuel (swapN l pos (2 * pos + 1)) (2 * pos + 1) max
      else l
    else l

/-- What `insertLoop` computes on a valid prefix. -/
def siftUp (mem : List Node) : Nat → List Ptr → Nat → List Ptr
  | 0, l, _ => l
  | fuel + 1, l, cur =>
    if keyAt mem l cur > keyAt mem l ((cur - 1) / 2) then
      siftUp mem fuel (swapN l cur ((cur - 1) / 2)) ((cur - 1) / 2)
    else l

/-- The child that `adjustHeap` exchanges with `pos`, if any. -/
def pickChild (mem : List Node) (l : List Ptr) (pos max : Nat) : Option Nat :=
  if 2 * pos + 2 < max then
    if keyAt mem l (2 * pos + 1) > keyAt mem l (2 * pos + 2) then
      if keyAt mem l (2 * pos + 1) > keyAt mem l pos then some (2 * pos + 1) else none
    else
      if keyAt mem l (2 * pos + 2) > keyAt mem l pos then some (2 * pos + 2) else none
  else if 2 * pos + 1 < max then
    if keyAt mem l (2 * pos + 1) > keyAt mem l pos then some (2 * pos + 1) else none
  else none

/-- The slice after `pop` when `size` was `n + 1`. -/
def popPure (mem : List Node) (l : List Ptr) (n : Nat) : List Ptr :=
  siftDown mem (n + 1) (l.set 0 (l.getD n none)) 0 n

/-- The pointers collected by `todo` iterations of the first loop of `GetTopNodes`
from a slice with `n` live entries, and the slice they leave. -/
def popsPure (mem : List Node) : Nat → List Ptr → Nat → List Ptr × List Ptr
  | 0, l, _ => ([], l)
  | _ + 1, l, 0 => ([], l)
  | todo + 1, l, n + 1 =>
    ((l.getD 0 none) :: (popsPure mem todo (popPure mem l n) n).1,
      (popsPure mem todo (popPure mem l n) n).2)

/-- The slice after `insert(p)` when `size` was `n`. -/
def insertPure (mem : List Node) (l : List Ptr) (n : Nat) (p : Ptr) : List Ptr :=
  siftUp mem (n + 2) (l.set n p) n

/-- The slice after inserting the pointers `ps` one after the other, starting at size `n`. -/
def insertsPure (mem : List Node) : List Ptr → List Ptr → Nat → List Ptr
  | [], l, _ => l
  | p :: ps, l, n => insertsPure mem ps (insertPure mem l n p) (n + 1)

/-- The state has `n` live entries, all valid. -/
def Good (hm : heapMap) (n : Nat) : Prop :=
  hm.size = (n : Int) ∧ LiveOK hm.mem hm.heap n

/-- The slice `GetTopNodes(k)` leaves: pop `todo` times, reinsert in reverse order. -/
def topPure (mem : List Node) (todo : Nat) (l : List Ptr) (n : Nat) : List Ptr :=
  insertsPure mem (popsPure mem todo l n).1.reverse (popsPure mem todo l n).2 (n - min todo n)

/-- Every address in the index map is allocated and its record carries the key. -/
def HashOK (hm : heapMap) : Prop :=
  ∀ k a, hashGet hm.hash k = some a → ∃ node, hm.mem.get? a = some node ∧ node.Key = k

/-- The state invariant: `size` live valid entries, at least one free slot, a sound index. -/
def Inv (hm : heapMap) : Prop :=
  (∃ n : Nat, Good hm n ∧ n < hm.heap.length) ∧ HashOK hm

/-- The calls that change the structure. -/
inductive Op where
  | insert (key : String) (priority : Int)
  | getTopNodes (numNodess : Int)
  deriving DecidableEq, Repr

/-- One call, keeping the state only. -/
def step (hm : heapMap) : Op → Except Fault heapMap
  | .insert key priority => (Insert hm key priority).map Prod.snd
  | .getTopNodes n => (GetTopNodes hm n).map Prod.snd

/-- A sequence of calls. -/
def run (hm : heapMap) (ops : List Op) : Except Fault heapMap := ops.foldlM step hm

/-- The priority the index map holds for a key, if the key is present. -/
def priorityOf (hm : heapMap) (key : String) : Option Int :=
  match hashGet hm.hash key with
  | none => none
  | some a => (hm.mem.get? a).map fun n => n.Priority

/-- The `priority` arguments of the successful `Insert(key, _)` calls of a run, in order. -/
def okDeltas (key : String) : heapMap → List Op → List Int
  | _, [] => []
  | hm, .insert k d :: ops =>
    match Insert hm k d with
    | .ok (none, hm1) => (if k = key then [d] else []) ++ okDeltas key hm1 ops
    | .ok (some _, hm1) => okDeltas key hm1 ops
    | .error _ => []
  | hm, .getTopNodes n :: ops =>
    match GetTopNodes hm n with
    | .ok (_, hm1) => okDeltas key hm1 ops
    | .error _ => []

/-- The stored priority after the successful deltas `ds`, starting from `v`. -/
def accumulate (v : Option Int) (ds : List Int) : Option Int :=
  ds.foldl (fun acc d => match acc with
    | none => some d
    | some x => some (wrap64 (x + d))) v

/-- The `(Key, Priority)` pair read through a pointer. -/
def entryOf (mem : List Node) (p : Ptr) : Option (String × Int) :=
  match p with
  | none => none
  | some a => (mem.get? a).map fun n => (n.Key, n.Priority)

/-- The max-heap property of the first `n` slots. -/
def MaxHeap (mem : List Node) (l : List Ptr) (n : Nat) : Prop :=
  ∀ i c, c < n → (c = 2 * i + 1 ∨ c = 2 * i + 2) → keyAt mem l c ≤ keyAt mem l i

/-- Four new keys, then an increment of the key in slot 3 (a grandchild of the root). -/
def raiseLeafOps : List Op :=
  [.insert "c" 10, .insert "b" 5, .insert "a" 3, .insert "d" 1, .insert "d" 100]

/-- Four new keys, then a decrement of the key in slot 1, which has a child in slot 3. -/
def lowerInnerOps : List Op :=
  [.insert "a" 10, .insert "b" 5, .insert "c" 3, .insert "d" 4, .insert "b" (-3)]

/-- Four new keys, then an increment of the key in slot 3, which ends above its parent. -/
def raiseGrandchildOps : List Op :=
  [.insert "p" 8, .insert "q" 6, .insert "r" 4, .insert "s" 2, .insert "s" 7]

/-- The scenario of the specification: `a` and `b` end with equal priority 5. -/
def tieOps : List Op := [.insert "a" 3, .insert "b" 5, .insert "a" 2]

/-- A run with inserts of two keys and a top-K query in between. -/
def mixedOps : List Op :=
  [.insert "a" 3, .insert "b" 5, .getTopNodes 2, .insert "a" 2, .insert "b" (-1)]

/-- A structure of capacity 2 holding its one admissible key. -/
def fullState : heapMap :=
  { mem := [{ Priority := 1, Key := "a" }], heap := [some 0, none], hash := [("a", 0)],
    size := 1 }

/-- Three new keys and an increment of the root's key: priorities 10, 7, 4. -/
def rankedOps : List Op := [.insert "x" 7, .insert "y" 9, .insert "z" 4, .insert "y" 1]

/-- The state that the run `rankedOps` reaches from `NewHeapMap 5`. -/
def rankedState : heapMap :=
  { mem := [{ Priority := 7, Key := "x" }, { Priority := 10, Key := "y" },
            { Priority := 4, Key := "z" }],
    heap := [some 1, some 0, some 2, none, none],
    hash := [("x", 0), ("y", 1), ("z", 2)],
    size := 3 }

/-- The live prefix holds exactly the addresses of the index map, and the index map
lists no key twice. -/
def IndexOK (hm : heapMap) : Prop :=
  (hm.heap.take hm.size.toNat).Perm (hm.hash.map fun e => some e.2) ∧
  (hm.hash.map Prod.fst).Nodup

/-- The key read through a pointer. -/
def keyOf (mem : List Node) (p : Ptr) : Option String := (entryOf mem p).map Prod.fst

/-- Any call of the public interface. -/
inductive Call where
  | insert (key : String) (priority : Int)
  | getTopNodes (numNodess : Int)
  | top
  | getPriority (key : String)
  deriving DecidableEq, Repr

/-- One call of the interface, keeping the state only; `Top` and `GetPriority` read
the state and leave it as it is. -/
def stepCall (hm : heapMap) : Call → Except Fault heapMap
  | .insert key priority => (Insert hm key priority).map Prod.snd
  | .getTopNodes n => (GetTopNodes hm n).map Prod.snd
  | .top => (Top hm).map fun _ => hm
  | .getPriority key => (GetPriority hm key).map fun _ => hm

/-- A sequence of calls of the interface. -/
def runCalls (hm : heapMap) (calls : List Call) : Except Fault heapMap :=
  calls.foldlM stepCall hm

/-- A run that mixes the four methods. -/
def probeCalls : List Call :=
  [.top, .insert "a" 3, .getPriority "b", .insert "b" 5, .getTopNodes 7, .top,
   .insert "a" (-9), .getTopNodes (-1), .getPriority "a"]

/-- Slot `i` lies in the subtree, of the implicit binary tree, rooted at slot `r`. -/
inductive InSubtree (r : Nat) : Nat → Prop where
  | root : InSubtree r r
  | left {i : Nat} : InSubtree r i → InSubtree r (2 * i + 1)
  | right {i : Nat} : InSubtree r i → InSubtree r (2 * i + 2)

/-- The max-heap property of the subtree rooted at `r`, over the slots below `max`. -/
def SubHeap (mem : List Node) (l : List Ptr) (max r : Nat) : Prop :=
  ∀ i c, InSubtree r i → c < max → (c = 2 * i + 1 ∨ c = 2 * i + 2) →
    keyAt mem l c ≤ keyAt mem l i

/-- A root of priority 1 over two children of equal priority 5. -/
def tiedChildrenState : heapMap :=
  { mem := [{ Priority := 1, Key := "r" }, { Priority := 5, Key := "s" },
            { Priority := 5, Key := "t" }],
    heap := [some 0, some 1, some 2, none],
    hash := [("r", 0), ("s", 1), ("t", 2)],
    size := 3 }

/-! ## Theorems -/

/-! ### The primitive slice and pointer operations -/

theorem heapGet_ok (heap : List Ptr) (i : Nat) (h : i < heap.length) :
    heapGet heap (i : Int) = .ok (heap.getD i none) := by
  unfold heapGet
  have : (0:Int) ≤ i ∧ (i:Int) < heap.length := ⟨by omega, by omega⟩
  simp [this]

theorem heapSet_ok (heap : List Ptr) (i : Nat) (p : Ptr) (h : i < heap.length) :
    heapSet heap (i : Int) p = .ok (heap.set i p) := by
  unfold heapSet
  have : (0:Int) ≤ i ∧ (i:Int) < heap.length := ⟨by omega, by omega⟩
  simp [this]

theorem heapSwap_ok (heap : List Ptr) (i j : Nat) (hi : i < heap.length) (hj : j < heap.length) :
    heapSwap heap (i : Int) (j : Int) = .ok (swapN heap i j) := by
  unfold heapSwap
  rw [heapGet_ok heap j hj, heapGet_ok heap i hi]
  simp only [bind, Except.bind]
  rw [heapSet_ok heap i _ hi]
  simp only [bind, Except.bind]
  rw [heapSet_ok _ j _ (by simpa using hj)]
  rfl

theorem deref_ok (mem : List Node) (p : Ptr) (h : ValidPtr mem p) :
    ∃ n, deref mem p = .ok n ∧ n.Priority = prioOf mem p := by
  obtain ⟨a, rfl, ha⟩ := h
  have h1 : mem[a]? = some mem[a] := List.getElem?_eq_getElem ha
  exact ⟨mem[a], by simp [deref, h1], by simp [prioOf, h1]⟩

theorem priorityAt_ok (mem : List Node) (heap : List Ptr) (i : Nat) (h : i < heap.length)
    (hv : ValidPtr mem (heap.getD i none)) :
    priorityAt mem heap (i : Int) = .ok (prioOf mem (heap.getD i none)) := by
  unfold priorityAt
  rw [heapGet_ok heap i h]
  obtain ⟨n, hn, hp⟩ := deref_ok mem _ hv
  simp only [bind, Except.bind, hn, pure, Except.pure, hp]

theorem goDiv_parent (cur : Nat) : goDiv ((cur : Int) - 1) 2 = (((cur - 1) / 2 : Nat) : Int) := by
  unfold goDiv
  cases cur with
  | zero => decide
  | succ n =>
    have : ((n + 1 : Nat) : Int) - 1 = (n : Int) := by omega
    rw [this]
    simp [Int.tdiv]

theorem length_swapN (l : List Ptr) (i j : Nat) : (swapN l i j).length = l.length := by
  simp [swapN]

theorem getD_swapN (l : List Ptr) (i j k : Nat) (hi : i < l.length) (hj : j < l.length) :
    (swapN l i j).getD k none =
      if k = j then l.getD i none else if k = i then l.getD j none else l.getD k none := by
  unfold swapN
  simp only [List.getD_eq_getElem?_getD, List.getElem?_set, List.length_set]
  by_cases h1 : k = j
  · subst h1; simp [hj]
  · by_cases h2 : k = i
    · subst h2
      have : ¬ j = k := fun h => h1 h.symm
      simp [this, hi, h1]
    · have h3 : ¬ j = k := fun h => h1 h.symm
      have h4 : ¬ i = k := fun h => h2 h.symm
      simp [h1, h2, h3, h4]

theorem LiveOK_swapN (mem : List Node) (l : List Ptr) (n i j : Nat) (h : LiveOK mem l n)
    (hi : i < n) (hj : j < n) : LiveOK mem (swapN l i j) n := by
  obtain ⟨hn, hv⟩ := h
  refine ⟨by rw [length_swapN]; exact hn, fun k hk => ?_⟩
  rw [getD_swapN l i j k (by omega) (by omega)]
  split
  · exact hv i hi
  · split
    · exact hv j hj
    · exact hv k hk

theorem adjustHeapAux_eq (mem : List Node) : ∀ (fuel : Nat) (l : List Ptr) (pos max : Nat),
    LiveOK mem l max → max - pos < fuel →
    adjustHeapAux mem fuel l (pos : Int) (max : Int) = .ok (siftDown mem fuel l pos max) := by
  intro fuel
  induction fuel with
  | zero => intro l pos max _ h; omega
  | succ fuel ih =>
    intro l pos max hl hf
    have e1 : (2 * (pos : Int) + 1) = ((2 * pos + 1 : Nat) : Int) := by push_cast; ring
    have e2 : (2 * (pos : Int) + 2) = ((2 * pos + 2 : Nat) : Int) := by push_cast; ring
    unfold adjustHeapAux siftDown
    simp only [e1, e2]
    by_cases h2 : 2 * pos + 2 < max
    · have h1 : 2 * pos + 1 < max := by omega
      have c1 : ((2 * pos + 1 : Nat) : Int) < (max : Int) ∧ ((2 * pos + 2 : Nat) : Int) < (max : Int) :=
        ⟨by omega, by omega⟩
      rw [if_pos c1, if_pos h2]
      rw [priorityAt_ok mem l _ (by have := hl.1; omega) (hl.2 _ h1),
          priorityAt_ok mem l _ (by have := hl.1; omega) (hl.2 _ h2)]
      simp only [bind, Except.bind, keyAt]
      by_cases hc : prioOf mem (l.getD (2 * pos + 1) none) > prioOf mem (l.getD (2 * pos + 2) none)
      · simp only [hc, if_true]
        rw [priorityAt_ok mem l _ (by have := hl.1; omega) (hl.2 _ h1),
          priorityAt_ok mem l _ (by have := hl.1; omega) (hl.2 _ (by omega))]
        simp only []
        split
        · rw [heapSwap_ok l _ _ (by have := hl.1; omega) (by have := hl.1; omega)]
          simp only []
          exact ih _ _ _ (LiveOK_swapN mem l max _ _ hl (by omega) h1) (by omega)
        · rfl
      · simp only [hc, if_false]
        rw [priorityAt_ok mem l _ (by have := hl.1; omega) (hl.2 _ h2),
          priorityAt_ok mem l _ (by have := hl.1; omega) (hl.2 _ (by omega))]
        simp only []
        split
        · rw [heapSwap_ok l _ _ (by have := hl.1; omega) (by have := hl.1; omega)]
          simp only []
          exact ih _ _ _ (LiveOK_swapN mem l max _ _ hl (by omega) h2) (by omega)
        · rfl
    · have c1 : ¬ (((2 * pos + 1 : Nat) : Int) < (max : Int) ∧ ((2 * pos + 2 : Nat) : Int) < (max : Int)) := by
        omega
      rw [if_neg c1, if_neg h2]
      by_cases h1 : 2 * pos + 1 < max
      · have c2 : ((2 * pos + 1 : Nat) : Int) < (max : Int) := by omega
        rw [if_pos c2, if_pos h1]
        rw [priorityAt_ok mem l _ (by have := hl.1; omega) (hl.2 _ h1),
          priorityAt_ok mem l _ (by have := hl.1; omega) (hl.2 _ (by omega))]
        simp only [bind, Except.bind, keyAt]
        split
        · rw [heapSwap_ok l _ _ (by have := hl.1; omega) (by have := hl.1; omega)]
          simp only []
          exact ih _ _ _ (LiveOK_swapN mem l max _ _ hl (by omega) h1) (by omega)
        · rfl
      · have c2 : ¬ ((2 * pos + 1 : Nat) : Int) < (max : Int) := by omega
        rw [if_neg c2, if_neg h1]
        rfl

theorem insertLoop_eq (mem : List Node) : ∀ (fuel : Nat) (l : List Ptr) (cur n : Nat),
    LiveOK mem l n → cur < n → cur < fuel →
    insertLoop mem fuel l (cur : Int) (((cur - 1) / 2 : Nat) : Int) = .ok (siftUp mem fuel l cur) := by
  intro fuel
  induction fuel with
  | zero => intro l cur n _ _ h; omega
  | succ fuel ih =>
    intro l cur n hl hc hf
    unfold insertLoop siftUp
    have c0 : (cur : Int) ≥ 0 := by omega
    rw [if_pos c0]
    have hp : (cur - 1) / 2 < n := by omega
    rw [priorityAt_ok mem l _ (by have := hl.1; omega) (hl.2 _ hc),
        priorityAt_ok mem l _ (by have := hl.1; omega) (hl.2 _ hp)]
    simp only [bind, Except.bind, keyAt]
    split
    · rename_i hgt
      have hne : cur ≠ 0 := by
        intro h0
        subst h0
        simp at hgt
      rw [heapSwap_ok l _ _ (by have := hl.1; omega) (by have := hl.1; omega)]
      simp only []
      rw [goDiv_parent]
      exact ih _ _ n (LiveOK_swapN mem l n _ _ hl hc hp) hp (by omega)
    · rfl

theorem getD_set_ptr (l : List Ptr) (i k : Nat) (p : Ptr) (hi : i < l.length) :
    (l.set i p).getD k none = if k = i then p else l.getD k none := by
  simp only [List.getD_eq_getElem?_getD, List.getElem?_set]
  by_cases h : k = i
  · subst h; simp [hi]
  · have : ¬ i = k := fun e => h e.symm
    simp [h, this]

theorem insert_eq (hm : heapMap) (p : Ptr) (n : Nat) (hn : hm.size = n)
    (hl : LiveOK hm.mem hm.heap n) (hlt : n < hm.heap.length) (hp : ValidPtr hm.mem p) :
    insert hm p = .ok { hm with heap := siftUp hm.mem (n + 2) (hm.heap.set n p) n,
                                size := (n : Int) + 1 } := by
  unfold insert
  rw [hn, heapSet_ok _ _ _ hlt]
  simp only [bind, Except.bind, Int.toNat_ofNat]
  rw [goDiv_parent]
  have hl2 : LiveOK hm.mem (hm.heap.set n p) (n + 1) := by
    refine ⟨by simp; omega, fun i hi => ?_⟩
    rw [getD_set_ptr _ _ _ _ hlt]
    split
    · exact hp
    · exact hl.2 i (by omega)
  rw [insertLoop_eq hm.mem _ _ n (n + 1) hl2 (by omega) (by omega)]
  rfl


theorem set_set_perm {α : Type} [DecidableEq α] (l : List α) (i j : Nat)
    (hi : i < l.length) (hj : j < l.length) :
    ((l.set i l[j]).set j l[i]).Perm l := by
  by_cases hij : i = j
  · subst hij
    have : (l.set i l[i]).set i l[i] = l := by
      apply List.ext_getElem?
      intro k
      simp only [List.getElem?_set]
      by_cases hk : i = k
      · subst hk; simp [hi]
      · simp [hk]
    rw [this]
  · rw [List.perm_iff_count]
    intro b
    have hj2 : j < (l.set i l[j]).length := by simpa using hj
    rw [List.count_set _ _ _ _ hj2, List.count_set _ _ _ _ hi]
    have e1 : (l.set i l[j])[j] = l[j] := by
      rw [List.getElem_set]; simp [hij]
    rw [e1]
    have b1 : (if (l[i] == b) = true then 1 else 0) ≤ l.count b := by
      split
      · rename_i h
        have : l[i] = b := by simpa using h
        have hm : b ∈ l := this ▸ List.getElem_mem hi
        exact List.count_pos_iff.mpr hm
      · omega
    omega

theorem swapN_perm (l : List Ptr) (i j : Nat) (hi : i < l.length) (hj : j < l.length) :
    (swapN l i j).Perm l := by
  unfold swapN
  have ei : l.getD i none = l[i] := by simp [List.getD_eq_getElem?_getD, hi]
  have ej : l.getD j none = l[j] := by simp [List.getD_eq_getElem?_getD, hj]
  rw [ei, ej]
  exact set_set_perm l i j hi hj

theorem take_swapN (l : List Ptr) (i j n : Nat) (hi : i < n) (hj : j < n) :
    (swapN l i j).take n = swapN (l.take n) i j := by
  unfold swapN
  rw [← List.set_take, ← List.set_take]
  have e1 : (l.take n).getD j none = l.getD j none := by
    simp [List.getD_eq_getElem?_getD, List.getElem?_take_of_lt hj]
  have e2 : (l.take n).getD i none = l.getD i none := by
    simp [List.getD_eq_getElem?_getD, List.getElem?_take_of_lt hi]
  rw [e1, e2]

theorem siftDown_succ (mem : List Node) (fuel : Nat) (l : List Ptr) (pos max : Nat) :
    siftDown mem (fuel + 1) l pos max =
      match pickChild mem l pos max with
      | some m => siftDown mem fuel (swapN l pos m) m max
      | none => l := by
  unfold pickChild
  rw [siftDown]
  by_cases h2 : 2 * pos + 2 < max
  · simp only [h2, if_true]
    by_cases hc : keyAt mem l (2 * pos + 1) > keyAt mem l (2 * pos + 2)
    · simp only [hc, if_true]
      split <;> rfl
    · simp only [hc, if_false]
      split <;> rfl
  · simp only [h2, if_false]
    by_cases h1 : 2 * pos + 1 < max
    · simp only [h1, if_true]
      split <;> rfl
    · simp only [h1, if_false]

theorem pickChild_some (mem : List Node) (l : List Ptr) (pos max m : Nat)
    (h : pickChild mem l pos max = some m) :
    (m = 2 * pos + 1 ∨ m = 2 * pos + 2) ∧ m < max ∧ keyAt mem l pos < keyAt mem l m ∧
    (2 * pos + 1 < max → keyAt mem l (2 * pos + 1) ≤ keyAt mem l m) ∧
    (2 * pos + 2 < max → keyAt mem l (2 * pos + 2) ≤ keyAt mem l m) := by
  unfold pickChild at h
  split at h
  · split at h
    · split at h
      · cases h
        refine ⟨Or.inl rfl, by omega, by omega, fun _ => le_refl _, fun _ => by omega⟩
      · cases h
    · split at h
      · cases h
        refine ⟨Or.inr rfl, by omega, by omega, fun _ => by omega, fun _ => le_refl _⟩
      · cases h
  · split at h
    · split at h
      · cases h
        refine ⟨Or.inl rfl, by omega, by omega, fun _ => le_refl _, fun h => by omega⟩
      · cases h
    · cases h

theorem pickChild_none (mem : List Node) (l : List Ptr) (pos max : Nat)
    (h : pickChild mem l pos max = none) :
    (2 * pos + 1 < max → keyAt mem l (2 * pos + 1) ≤ keyAt mem l pos) ∧
    (2 * pos + 2 < max → keyAt mem l (2 * pos + 2) ≤ keyAt mem l pos) := by
  unfold pickChild at h
  split at h
  · split at h
    · split at h
      · cases h
      · exact ⟨fun _ => by omega, fun _ => by omega⟩
    · split at h
      · cases h
      · exact ⟨fun _ => by omega, fun _ => by omega⟩
  · split at h
    · split at h
      · cases h
      · exact ⟨fun _ => by omega, fun h => by omega⟩
    · exact ⟨fun h => by omega, fun h => by omega⟩

theorem length_siftDown (mem : List Node) : ∀ (fuel : Nat) (l : List Ptr) (pos max : Nat),
    (siftDown mem fuel l pos max).length = l.length := by
  intro fuel
  induction fuel with
  | zero => intro l pos max; rfl
  | succ fuel ih =>
    intro l pos max
    rw [siftDown_succ]
    split
    · rw [ih, length_swapN]
    · rfl

theorem take_siftDown_perm (mem : List Node) : ∀ (fuel : Nat) (l : List Ptr) (pos max : Nat),
    max ≤ l.length →
    ((siftDown mem fuel l pos max).take max).Perm (l.take max) := by
  intro fuel
  induction fuel with
  | zero => intro l pos max _; exact List.Perm.refl _
  | succ fuel ih =>
    intro l pos max hm
    rw [siftDown_succ]
    split
    · rename_i m hpick
      obtain ⟨hm1, hm2, -⟩ := pickChild_some mem l pos max m hpick
      refine (ih (swapN l pos m) m max (by rw [length_swapN]; exact hm)).trans ?_
      rw [take_swapN l pos m max (by omega) hm2]
      exact swapN_perm _ _ _ (by simp; omega) (by simp; omega)
    · exact List.Perm.refl _

theorem getD_siftDown_ge (mem : List Node) : ∀ (fuel : Nat) (l : List Ptr) (pos max k : Nat),
    max ≤ l.length → max ≤ k →
    (siftDown mem fuel l pos max).getD k none = l.getD k none := by
  intro fuel
  induction fuel with
  | zero => intro l pos max k _ _; rfl
  | succ fuel ih =>
    intro l pos max k hm hk
    rw [siftDown_succ]
    split
    · rename_i m hpick
      obtain ⟨hm1, hm2, -⟩ := pickChild_some mem l pos max m hpick
      rw [ih (swapN l pos m) m max k (by rw [length_swapN]; exact hm) hk]
      rw [getD_swapN l pos m k (by omega) (by omega)]
      rw [if_neg (by omega), if_neg (by omega)]
    · rfl

theorem LiveOK_iff (mem : List Node) (l : List Ptr) (n : Nat) :
    LiveOK mem l n ↔ n ≤ l.length ∧ ∀ p ∈ l.take n, ValidPtr mem p := by
  unfold LiveOK
  constructor
  · rintro ⟨h1, h2⟩
    refine ⟨h1, fun p hp => ?_⟩
    obtain ⟨i, hi, rfl⟩ := List.getElem_of_mem hp
    have hi2 : i < n := by simp at hi; omega
    have := h2 i hi2
    simpa [List.getD_eq_getElem?_getD, List.getElem?_eq_getElem (show i < l.length by omega)]
      using this
  · rintro ⟨h1, h2⟩
    refine ⟨h1, fun i hi => ?_⟩
    have hi3 : i < (l.take n).length := by simp; omega
    have : (l.take n)[i] ∈ l.take n := List.getElem_mem hi3
    have := h2 _ this
    simpa [List.getD_eq_getElem?_getD, List.getElem?_eq_getElem (show i < l.length by omega)]
      using this

theorem LiveOK_of_perm (mem : List Node) (l l2 : List Ptr) (n : Nat)
    (h : LiveOK mem l n) (hlen : l2.length = l.length) (hp : (l2.take n).Perm (l.take n)) :
    LiveOK mem l2 n := by
  rw [LiveOK_iff] at h ⊢
  exact ⟨by omega, fun p hp2 => h.2 p (hp.subset hp2)⟩

theorem length_siftUp (mem : List Node) : ∀ (fuel : Nat) (l : List Ptr) (cur : Nat),
    (siftUp mem fuel l cur).length = l.length := by
  intro fuel
  induction fuel with
  | zero => intro l cur; rfl
  | succ fuel ih =>
    intro l cur
    rw [siftUp]
    split
    · rw [ih, length_swapN]
    · rfl

theorem take_siftUp_perm (mem : List Node) : ∀ (fuel : Nat) (l : List Ptr) (cur n : Nat),
    cur < n → n ≤ l.length →
    ((siftUp mem fuel l cur).take n).Perm (l.take n) := by
  intro fuel
  induction fuel with
  | zero => intro l cur n _ _; exact List.Perm.refl _
  | succ fuel ih =>
    intro l cur n hc hn
    rw [siftUp]
    split
    · refine (ih (swapN l cur ((cur - 1) / 2)) ((cur - 1) / 2) n (by omega)
        (by rw [length_swapN]; exact hn)).trans ?_
      rw [take_swapN l cur _ n hc (by omega)]
      exact swapN_perm _ _ _ (by simp; omega) (by simp; omega)
    · exact List.Perm.refl _

theorem getD_siftUp_gt (mem : List Node) : ∀ (fuel : Nat) (l : List Ptr) (cur k : Nat),
    cur < l.length → cur < k →
    (siftUp mem fuel l cur).getD k none = l.getD k none := by
  intro fuel
  induction fuel with
  | zero => intro l cur k _ _; rfl
  | succ fuel ih =>
    intro l cur k hc hk
    rw [siftUp]
    split
    · rw [ih _ _ k (by rw [length_swapN]; omega) (by omega)]
      rw [getD_swapN l cur _ k hc (by omega)]
      rw [if_neg (by omega), if_neg (by omega)]
    · rfl

theorem adjustHeap_eq (hm : heapMap) (n : Nat) (hl : LiveOK hm.mem hm.heap n) :
    adjustHeap hm 0 (n : Int) =
      .ok { hm with heap := siftDown hm.mem (n + 1) hm.heap 0 n } := by
  unfold adjustHeap
  have := adjustHeapAux_eq hm.mem (n + 1) hm.heap 0 n hl (by omega)
  simp only [Nat.cast_zero] at this
  simp only [Int.toNat_ofNat, this, bind, Except.bind, pure, Except.pure]

theorem pop_empty (hm : heapMap) (h : hm.size = 0) :
    pop hm = .ok ((none, some .heapEmpty), hm) := by
  unfold pop
  rw [if_pos h]

theorem pop_eq (hm : heapMap) (n : Nat) (hn : hm.size = (n : Int) + 1)
    (hl : LiveOK hm.mem hm.heap (n + 1)) :
    pop hm = .ok ((hm.heap.getD 0 none, none),
      { hm with heap := siftDown hm.mem (n + 1) (hm.heap.set 0 (hm.heap.getD n none)) 0 n,
                size := (n : Int) }) := by
  unfold pop
  have h0 : ¬ hm.size = 0 := by omega
  rw [if_neg h0]
  have hlen : n + 1 ≤ hm.heap.length := hl.1
  have e0 : heapGet hm.heap 0 = .ok (hm.heap.getD 0 none) := heapGet_ok hm.heap 0 (by omega)
  have e1 : hm.size - 1 = (n : Int) := by omega
  rw [e0, e1, heapGet_ok hm.heap n (by omega)]
  simp only [bind, Except.bind]
  have e2 : heapSet hm.heap 0 (hm.heap.getD n none) = .ok (hm.heap.set 0 (hm.heap.getD n none)) :=
    heapSet_ok hm.heap 0 _ (by omega)
  rw [e2]
  simp only []
  have hl2 : LiveOK hm.mem (hm.heap.set 0 (hm.heap.getD n none)) n := by
    refine ⟨by simp; omega, fun i hi => ?_⟩
    rw [getD_set_ptr _ _ _ _ (by omega)]
    split
    · exact hl.2 n (by omega)
    · exact hl.2 i (by omega)
  have := adjustHeap_eq { hm with heap := hm.heap.set 0 (hm.heap.getD n none), size := (n : Int) } n hl2
  simp only [] at this
  rw [this]
  rfl

theorem pop_take_perm (l : List Ptr) (n : Nat) (hn : n + 1 ≤ l.length) :
    (l.getD 0 none :: (l.set 0 (l.getD n none)).take n).Perm (l.take (n + 1)) := by
  cases l with
  | nil => simp at hn
  | cons h0 rest =>
    cases n with
    | zero => simp
    | succ k =>
      have hk : k < rest.length := by simp at hn; omega
      simp only [List.getD_cons_zero, List.set_cons_zero, List.take_succ_cons, List.getD_cons_succ]
      refine List.Perm.cons _ ?_
      have e : rest.getD k none = rest[k] := by
        simp [List.getD_eq_getElem?_getD, List.getElem?_eq_getElem hk]
      rw [e, List.take_succ, List.getElem?_eq_getElem hk]
      simp only [Option.toList]
      exact (List.perm_append_singleton _ _).symm

theorem length_popPure (mem : List Node) (l : List Ptr) (n : Nat) :
    (popPure mem l n).length = l.length := by
  unfold popPure
  rw [length_siftDown]; simp

theorem length_insertPure (mem : List Node) (l : List Ptr) (n : Nat) (p : Ptr) :
    (insertPure mem l n p).length = l.length := by
  unfold insertPure
  rw [length_siftUp]; simp

theorem popPure_perm (mem : List Node) (l : List Ptr) (n : Nat) (hn : n + 1 ≤ l.length) :
    (l.getD 0 none :: (popPure mem l n).take n).Perm (l.take (n + 1)) := by
  unfold popPure
  refine List.Perm.trans (List.Perm.cons _ ?_) (pop_take_perm l n hn)
  exact take_siftDown_perm mem _ _ 0 n (by simp; omega)

theorem LiveOK_popPure (mem : List Node) (l : List Ptr) (n : Nat) (h : LiveOK mem l (n + 1)) :
    LiveOK mem (popPure mem l n) n := by
  have hp := popPure_perm mem l n h.1
  rw [LiveOK_iff] at h ⊢
  refine ⟨by rw [length_popPure]; omega, fun p hp2 => ?_⟩
  exact h.2 p (hp.subset (List.mem_cons_of_mem _ hp2))

theorem insertPure_perm (mem : List Node) (l : List Ptr) (n : Nat) (p : Ptr)
    (hn : n < l.length) :
    ((insertPure mem l n p).take (n + 1)).Perm (p :: l.take n) := by
  unfold insertPure
  refine (take_siftUp_perm mem _ _ n (n + 1) (by omega) (by simp; omega)).trans ?_
  rw [List.take_succ]
  have e1 : (l.set n p)[n]? = some p := by simp [hn]
  have e2 : (l.set n p).take n = l.take n := by
    rw [List.set_take]
    exact List.set_eq_of_length_le (by simp)
  rw [e1, e2]
  simp only [Option.toList]
  exact List.perm_append_singleton _ _

theorem LiveOK_insertPure (mem : List Node) (l : List Ptr) (n : Nat) (p : Ptr)
    (h : LiveOK mem l n) (hn : n < l.length) (hp : ValidPtr mem p) :
    LiveOK mem (insertPure mem l n p) (n + 1) := by
  have hperm := insertPure_perm mem l n p hn
  rw [LiveOK_iff] at h ⊢
  refine ⟨by rw [length_insertPure]; omega, fun q hq => ?_⟩
  have := hperm.subset hq
  rcases List.mem_cons.mp this with h1 | h1
  · rw [h1]; exact hp
  · exact h.2 q h1

theorem insert_eq_pure (hm : heapMap) (p : Ptr) (n : Nat) (hg : Good hm n)
    (hlt : n < hm.heap.length) (hp : ValidPtr hm.mem p) :
    insert hm p = .ok { hm with heap := insertPure hm.mem hm.heap n p, size := (n : Int) + 1 } :=
  insert_eq hm p n hg.1 hg.2 hlt hp

theorem pop_eq_pure (hm : heapMap) (n : Nat) (hg : Good hm (n + 1)) :
    pop hm = .ok ((hm.heap.getD 0 none, none),
      { hm with heap := popPure hm.mem hm.heap n, size := (n : Int) }) :=
  pop_eq hm n (by have := hg.1; push_cast at this; exact this) hg.2

theorem popsPure_length (mem : List Node) : ∀ (todo : Nat) (l : List Ptr) (n : Nat),
    (popsPure mem todo l n).1.length = min todo n ∧
    (popsPure mem todo l n).2.length = l.length := by
  intro todo
  induction todo with
  | zero => intro l n; simp [popsPure]
  | succ todo ih =>
    intro l n
    cases n with
    | zero => simp [popsPure]
    | succ n =>
      have := ih (popPure mem l n) n
      simp only [popsPure, List.length_cons, this.1, this.2, length_popPure]
      exact ⟨by omega, trivial⟩

theorem popsPure_perm (mem : List Node) : ∀ (todo : Nat) (l : List Ptr) (n : Nat),
    n ≤ l.length →
    ((popsPure mem todo l n).1 ++ (popsPure mem todo l n).2.take (n - min todo n)).Perm
      (l.take n) := by
  intro todo
  induction todo with
  | zero => intro l n _; simp [popsPure]
  | succ todo ih =>
    intro l n hn
    cases n with
    | zero => simp [popsPure]
    | succ n =>
      have h1 := ih (popPure mem l n) n (by rw [length_popPure]; omega)
      have h2 := popPure_perm mem l n hn
      simp only [popsPure, List.cons_append]
      have e : n + 1 - min (todo + 1) (n + 1) = n - min todo n := by omega
      rw [e]
      exact (List.Perm.cons _ h1).trans h2

theorem LiveOK_popsPure (mem : List Node) (todo : Nat) (l : List Ptr) (n : Nat)
    (h : LiveOK mem l n) :
    LiveOK mem (popsPure mem todo l n).2 (n - min todo n) ∧
    ∀ p ∈ (popsPure mem todo l n).1, ValidPtr mem p := by
  have hp := popsPure_perm mem todo l n h.1
  have hlen := (popsPure_length mem todo l n).2
  rw [LiveOK_iff] at h
  rw [LiveOK_iff]
  refine ⟨⟨by omega, fun p hp2 => ?_⟩, fun p hp2 => ?_⟩
  · exact h.2 p (hp.subset (List.mem_append_right _ hp2))
  · exact h.2 p (hp.subset (List.mem_append_left _ hp2))

theorem popLoop_eq : ∀ (todo : Nat) (hm : heapMap) (temp : List Ptr) (n : Nat),
    Good hm n →
    popLoop todo hm temp =
      .ok ((temp ++ (popsPure hm.mem todo hm.heap n).1,
            if n < todo then some Error.heapEmpty else none),
           { hm with heap := (popsPure hm.mem todo hm.heap n).2,
                     size := ((n - min todo n : Nat) : Int) }) := by
  intro todo
  induction todo with
  | zero =>
    intro hm temp n hg
    obtain ⟨hs, -⟩ := hg
    cases hm
    simp only [] at hs
    subst hs
    simp [popLoop, popsPure]
  | succ todo ih =>
    intro hm temp n hg
    cases n with
    | zero =>
      obtain ⟨hs, -⟩ := hg
      rw [popLoop, pop_empty hm (by simpa using hs)]
      cases hm
      simp only [] at hs
      subst hs
      simp [popsPure, bind, Except.bind, pure, Except.pure]
    | succ n =>
      rw [popLoop, pop_eq_pure hm n hg]
      simp only [bind, Except.bind]
      have hg2 : Good { hm with heap := popPure hm.mem hm.heap n, size := (n : Int) } n :=
        ⟨rfl, LiveOK_popPure hm.mem hm.heap n hg.2⟩
      rw [ih _ _ n hg2]
      have e : n + 1 - min (todo + 1) (n + 1) = n - min todo n := by omega
      have e2 : (n + 1 < todo + 1) = (n < todo) := by simp
      simp only [popsPure, List.append_assoc, List.singleton_append, e2, e]

theorem length_insertsPure (mem : List Node) : ∀ (ps l : List Ptr) (n : Nat),
    (insertsPure mem ps l n).length = l.length := by
  intro ps
  induction ps with
  | nil => intro l n; rfl
  | cons p ps ih => intro l n; rw [insertsPure, ih, length_insertPure]

theorem insertsPure_perm (mem : List Node) : ∀ (ps l : List Ptr) (n : Nat),
    n + ps.length ≤ l.length →
    ((insertsPure mem ps l n).take (n + ps.length)).Perm (ps ++ l.take n) := by
  intro ps
  induction ps with
  | nil => intro l n _; simp [insertsPure]
  | cons p ps ih =>
    intro l n hn
    simp only [List.length_cons] at hn
    have h1 := ih (insertPure mem l n p) (n + 1) (by rw [length_insertPure]; omega)
    have h2 := insertPure_perm mem l n p (by omega)
    rw [insertsPure]
    have e : n + (p :: ps).length = n + 1 + ps.length := by simp; omega
    rw [e]
    refine h1.trans ?_
    refine (List.Perm.append_left ps h2).trans ?_
    simp only [List.cons_append]
    exact List.perm_middle

theorem LiveOK_insertsPure (mem : List Node) (ps l : List Ptr) (n : Nat)
    (h : LiveOK mem l n) (hn : n + ps.length ≤ l.length) (hps : ∀ p ∈ ps, ValidPtr mem p) :
    LiveOK mem (insertsPure mem ps l n) (n + ps.length) := by
  have hp := insertsPure_perm mem ps l n hn
  rw [LiveOK_iff] at h ⊢
  refine ⟨by rw [length_insertsPure]; omega, fun q hq => ?_⟩
  rcases List.mem_append.mp (hp.subset hq) with h1 | h1
  · exact hps q h1
  · exact h.2 q h1

theorem foldlM_insert_eq : ∀ (ps : List Ptr) (hm : heapMap) (n : Nat),
    Good hm n → n + ps.length ≤ hm.heap.length → (∀ p ∈ ps, ValidPtr hm.mem p) →
    ps.foldlM insert hm =
      .ok { hm with heap := insertsPure hm.mem ps hm.heap n,
                    size := ((n + ps.length : Nat) : Int) } := by
  intro ps
  induction ps with
  | nil =>
    intro hm n hg _ _
    obtain ⟨hs, -⟩ := hg
    cases hm
    simp only [] at hs
    subst hs
    simp [insertsPure, pure, Except.pure]
  | cons p ps ih =>
    intro hm n hg hn hps
    simp only [List.length_cons] at hn
    rw [List.foldlM_cons, insert_eq_pure hm p n hg (by omega) (hps p (List.mem_cons_self _ _))]
    simp only [bind, Except.bind]
    have hg2 : Good { hm with heap := insertPure hm.mem hm.heap n p, size := (n : Int) + 1 }
        (n + 1) :=
      ⟨by simp, LiveOK_insertPure hm.mem hm.heap n p hg.2 (by omega)
        (hps p (List.mem_cons_self _ _))⟩
    rw [ih _ (n + 1) hg2 (by simp [length_insertPure]; omega)
      (fun q hq => hps q (List.mem_cons_of_mem _ hq))]
    have e : n + 1 + ps.length = n + (p :: ps).length := by simp; omega
    simp only [insertsPure, e]

theorem reinsertLoop_eq (hm : heapMap) (temp : List Ptr) (n : Nat)
    (hg : Good hm n) (hn : n + temp.length ≤ hm.heap.length)
    (hps : ∀ p ∈ temp, ValidPtr hm.mem p) :
    reinsertLoop hm temp =
      .ok { hm with heap := insertsPure hm.mem temp.reverse hm.heap n,
                    size := ((n + temp.length : Nat) : Int) } := by
  unfold reinsertLoop
  rw [foldlM_insert_eq temp.reverse hm n hg (by simpa using hn)
    (fun p hp => hps p (List.mem_reverse.mp hp))]
  simp

theorem GetTopNodes_eq (hm : heapMap) (numNodess : Int) (n : Nat) (hg : Good hm n) :
    GetTopNodes hm numNodess =
      .ok (((popsPure hm.mem numNodess.toNat hm.heap n).1,
            if n < numNodess.toNat then some Error.heapEmpty else none),
           { hm with heap := topPure hm.mem numNodess.toNat hm.heap n }) := by
  unfold GetTopNodes
  rw [popLoop_eq numNodess.toNat hm [] n hg]
  simp only [bind, Except.bind, List.nil_append]
  have hl := LiveOK_popsPure hm.mem numNodess.toNat hm.heap n hg.2
  have hlen := popsPure_length hm.mem numNodess.toNat hm.heap n
  have hg2 : Good { hm with heap := (popsPure hm.mem numNodess.toNat hm.heap n).2,
                            size := ((n - min numNodess.toNat n : Nat) : Int) }
      (n - min numNodess.toNat n) := ⟨rfl, hl.1⟩
  have hn := hg.2.1
  rw [reinsertLoop_eq _ _ _ hg2 (by simp only [hlen.1, hlen.2]; omega) hl.2]
  simp only [pure, Except.pure, hlen.1]
  have e : n - min numNodess.toNat n + min numNodess.toNat n = n := by omega
  rw [e]
  obtain ⟨hs, -⟩ := hg
  cases hm
  simp only [] at hs
  subst hs
  rfl

theorem topPure_perm (mem : List Node) (todo : Nat) (l : List Ptr) (n : Nat)
    (hn : n ≤ l.length) :
    ((topPure mem todo l n).take n).Perm (l.take n) := by
  unfold topPure
  have hlen := popsPure_length mem todo l n
  have h1 := insertsPure_perm mem (popsPure mem todo l n).1.reverse (popsPure mem todo l n).2
    (n - min todo n) (by simp only [List.length_reverse, hlen.1, hlen.2]; omega)
  have e : n - min todo n + (popsPure mem todo l n).1.reverse.length = n := by
    simp only [List.length_reverse, hlen.1]; omega
  rw [e] at h1
  refine h1.trans ?_
  refine (List.Perm.append_right _ (List.reverse_perm _)).trans ?_
  exact popsPure_perm mem todo l n hn

theorem hashGet_hashSet (hash : List (String × Nat)) (key k : String) (a : Nat) :
    hashGet (hashSet hash key a) k = if k = key then some a else hashGet hash k := by
  induction hash with
  | nil =>
    simp only [hashSet, hashGet]
    by_cases h : k = key
    · simp [h]
    · have : ¬ key = k := fun e => h e.symm
      simp [h, this]
  | cons e rest ih =>
    obtain ⟨k1, b⟩ := e
    simp only [hashSet]
    by_cases h1 : k1 = key
    · simp only [h1, if_true, hashGet]
      by_cases h : k = key
      · simp [h]
      · have : ¬ key = k := fun e => h e.symm
        simp [h, this]
    · simp only [h1, if_false, hashGet, ih]
      by_cases h : k = key
      · subst h
        simp [h1]
      · simp [h]

theorem ValidPtr_mono (mem mem2 : List Node) (p : Ptr) (h : mem.length ≤ mem2.length)
    (hp : ValidPtr mem p) : ValidPtr mem2 p := by
  obtain ⟨a, rfl, ha⟩ := hp
  exact ⟨a, rfl, by omega⟩

theorem LiveOK_mono (mem mem2 : List Node) (l : List Ptr) (n : Nat)
    (h : mem.length ≤ mem2.length) (hl : LiveOK mem l n) : LiveOK mem2 l n :=
  ⟨hl.1, fun i hi => ValidPtr_mono mem mem2 _ h (hl.2 i hi)⟩

theorem Insert_existing (hm : heapMap) (key : String) (priority : Int) (n a : Nat)
    (node : Node) (hg : Good hm n) (hk : hashGet hm.hash key = some a)
    (ha : hm.mem.get? a = some node) :
    Insert hm key priority =
      .ok (none,
        { hm with
          mem := hm.mem.set a { node with Priority := wrap64 (node.Priority + priority) },
          heap := siftDown
            (hm.mem.set a { node with Priority := wrap64 (node.Priority + priority) })
            (n + 1) hm.heap 0 n }) := by
  unfold Insert
  rw [hk]
  simp only [ha]
  have hl : LiveOK (hm.mem.set a { node with Priority := wrap64 (node.Priority + priority) })
      hm.heap n := LiveOK_mono hm.mem _ _ _ (by simp) hg.2
  have := adjustHeap_eq
    { hm with mem := hm.mem.set a { node with Priority := wrap64 (node.Priority + priority) } }
    n hl
  simp only [] at this
  rw [hg.1] at this ⊢
  rw [this]
  rfl

theorem Insert_full (hm : heapMap) (key : String) (priority : Int)
    (hk : hashGet hm.hash key = none) (hf : hm.size = (hm.heap.length : Int) - 1) :
    Insert hm key priority = .ok (some .heapFull, hm) := by
  unfold Insert
  rw [hk]
  simp only [hf, if_true]

theorem Insert_new (hm : heapMap) (key : String) (priority : Int) (n : Nat)
    (hg : Good hm n) (hlt : n + 1 < hm.heap.length)
    (hk : hashGet hm.hash key = none) :
    Insert hm key priority =
      .ok (none,
        { mem := hm.mem ++ [{ Priority := priority, Key := key }],
          heap := insertPure (hm.mem ++ [{ Priority := priority, Key := key }]) hm.heap n
            (some hm.mem.length),
          hash := hashSet hm.hash key hm.mem.length,
          size := (n : Int) + 1 }) := by
  unfold Insert
  rw [hk]
  have hf : ¬ hm.size = (hm.heap.length : Int) - 1 := by rw [hg.1]; omega
  simp only [hf, if_false]
  have hg2 : Good { hm with mem := hm.mem ++ [{ Priority := priority, Key := key }] } n :=
    ⟨hg.1, LiveOK_mono hm.mem _ _ _ (by simp) hg.2⟩
  rw [insert_eq_pure _ _ n hg2 (by simp only []; omega) ⟨hm.mem.length, rfl, by simp⟩]
  rfl

theorem Inv_NewHeapMap (c : Nat) (hc : 1 ≤ c) : Inv (NewHeapMap c) := by
  refine ⟨⟨0, ⟨rfl, by simp [NewHeapMap], fun i hi => by omega⟩, by simp [NewHeapMap]; omega⟩, ?_⟩
  intro k a h
  simp [NewHeapMap, hashGet] at h

theorem Inv_Insert (hm : heapMap) (key : String) (priority : Int) (h : Inv hm) :
    ∃ e hm2, Insert hm key priority = .ok (e, hm2) ∧ Inv hm2 ∧
      hm2.heap.length = hm.heap.length := by
  obtain ⟨⟨n, hg, hn⟩, hh⟩ := h
  cases hk : hashGet hm.hash key with
  | some a =>
    obtain ⟨node, ha, hkey⟩ := hh key a hk
    refine ⟨_, _, Insert_existing hm key priority n a node hg hk ha, ?_, ?_⟩
    · refine ⟨⟨n, ⟨hg.1, ?_⟩, ?_⟩, ?_⟩
      · have hl : LiveOK (hm.mem.set a { node with Priority := wrap64 (node.Priority + priority) })
            hm.heap n := LiveOK_mono hm.mem _ _ _ (by simp) hg.2
        exact LiveOK_of_perm _ _ _ _ hl (length_siftDown _ _ _ _ _)
          (take_siftDown_perm _ _ _ _ _ hg.2.1)
      · simp only [length_siftDown]; exact hn
      · intro k b hb
        obtain ⟨nb, hnb, hkb⟩ := hh k b hb
        simp only [List.get?_eq_getElem?] at hnb ha ⊢
        by_cases hab : a = b
        · subst hab
          rw [ha] at hnb
          cases hnb
          have : a < hm.mem.length := by
            by_contra hc
            rw [List.getElem?_eq_none (by omega)] at ha
            cases ha
          exact ⟨{ node with Priority := wrap64 (node.Priority + priority) },
            by rw [List.getElem?_set_self this], hkb⟩
        · exact ⟨nb, by rw [List.getElem?_set_ne hab]; exact hnb, hkb⟩
    · simp only [length_siftDown]
  | none =>
    by_cases hf : hm.size = (hm.heap.length : Int) - 1
    · exact ⟨_, _, Insert_full hm key priority hk hf, ⟨⟨n, hg, hn⟩, hh⟩, rfl⟩
    · have hlt : n + 1 < hm.heap.length := by rw [hg.1] at hf; omega
      refine ⟨_, _, Insert_new hm key priority n hg hlt hk, ?_, ?_⟩
      · refine ⟨⟨n + 1, ⟨by simp, ?_⟩, ?_⟩, ?_⟩
        · exact LiveOK_insertPure _ _ _ _ (LiveOK_mono hm.mem _ _ _ (by simp) hg.2) (by omega)
            ⟨hm.mem.length, rfl, by simp⟩
        · simp only [length_insertPure]; exact hlt
        · intro k b hb
          simp only [hashGet_hashSet] at hb
          simp only [List.get?_eq_getElem?]
          by_cases hkk : k = key
          · rw [if_pos hkk] at hb
            cases hb
            exact ⟨{ Priority := priority, Key := key }, by simp, hkk.symm⟩
          · rw [if_neg hkk] at hb
            obtain ⟨nb, hnb, hkb⟩ := hh k b hb
            simp only [List.get?_eq_getElem?] at hnb
            have : b < hm.mem.length := by
              by_contra hc
              rw [List.getElem?_eq_none (by omega)] at hnb
              cases hnb
            exact ⟨nb, by rw [List.getElem?_append_left this]; exact hnb, hkb⟩
      · simp only [length_insertPure]

theorem LiveOK_topPure (mem : List Node) (todo : Nat) (l : List Ptr) (n : Nat)
    (h : LiveOK mem l n) : LiveOK mem (topPure mem todo l n) n := by
  refine LiveOK_of_perm mem l _ n h ?_ (topPure_perm mem todo l n h.1)
  unfold topPure
  rw [length_insertsPure, (popsPure_length mem todo l n).2]

theorem length_topPure (mem : List Node) (todo : Nat) (l : List Ptr) (n : Nat) :
    (topPure mem todo l n).length = l.length := by
  unfold topPure
  rw [length_insertsPure, (popsPure_length mem todo l n).2]

theorem Inv_GetTopNodes (hm : heapMap) (numNodess : Int) (h : Inv hm) :
    ∃ r hm2, GetTopNodes hm numNodess = .ok (r, hm2) ∧ Inv hm2 ∧
      hm2.heap.length = hm.heap.length := by
  obtain ⟨⟨n, hg, hn⟩, hh⟩ := h
  refine ⟨_, _, GetTopNodes_eq hm numNodess n hg, ⟨⟨n, ⟨hg.1, ?_⟩, ?_⟩, hh⟩, ?_⟩
  · exact LiveOK_topPure _ _ _ _ hg.2
  · simp only [length_topPure]; exact hn
  · simp only [length_topPure]

theorem Inv_step (hm : heapMap) (op : Op) (h : Inv hm) :
    ∃ hm2, step hm op = .ok hm2 ∧ Inv hm2 ∧ hm2.heap.length = hm.heap.length := by
  cases op with
  | insert key priority =>
    obtain ⟨e, hm2, h1, h2, h3⟩ := Inv_Insert hm key priority h
    exact ⟨hm2, by simp [step, h1, Except.map], h2, h3⟩
  | getTopNodes n =>
    obtain ⟨e, hm2, h1, h2, h3⟩ := Inv_GetTopNodes hm n h
    exact ⟨hm2, by simp [step, h1, Except.map], h2, h3⟩

theorem Inv_run (ops : List Op) : ∀ (hm : heapMap), Inv hm →
    ∃ hm2, run hm ops = .ok hm2 ∧ Inv hm2 ∧ hm2.heap.length = hm.heap.length := by
  induction ops with
  | nil => intro hm h; exact ⟨hm, rfl, h, rfl⟩
  | cons op ops ih =>
    intro hm h
    obtain ⟨hm1, h1, h2, h3⟩ := Inv_step hm op h
    obtain ⟨hm2, h4, h5, h6⟩ := ih hm1 h2
    refine ⟨hm2, ?_, h5, by omega⟩
    simp only [run, List.foldlM_cons, h1, bind, Except.bind]
    exact h4

theorem GetPriority_eq (hm : heapMap) (key : String) (h : HashOK hm) :
    GetPriority hm key =
      match priorityOf hm key with
      | some v => .ok (v, none)
      | none => .ok (0, some .keyNotInHeap) := by
  unfold GetPriority priorityOf
  cases hk : hashGet hm.hash key with
  | none => rfl
  | some a =>
    obtain ⟨node, hn, -⟩ := h key a hk
    simp only [hn, Option.map]

theorem priorityOf_Insert_same (hm : heapMap) (key : String) (d : Int) (h : Inv hm) :
    ∃ e hm2, Insert hm key d = .ok (e, hm2) ∧
      ((e = none ∧ priorityOf hm2 key = accumulate (priorityOf hm key) [d]) ∨
       (e = some .heapFull ∧ hm2 = hm ∧ priorityOf hm key = none)) := by
  obtain ⟨⟨n, hg, hn⟩, hh⟩ := h
  cases hk : hashGet hm.hash key with
  | some a =>
    obtain ⟨node, ha, hkey⟩ := hh key a hk
    refine ⟨_, _, Insert_existing hm key d n a node hg hk ha, Or.inl ⟨rfl, ?_⟩⟩
    have hlt : a < hm.mem.length := by
      by_contra hc
      simp only [List.get?_eq_getElem?] at ha
      rw [List.getElem?_eq_none (by omega)] at ha
      cases ha
    simp only [priorityOf, hk, ha, Option.map, accumulate, List.foldl, List.get?_eq_getElem?,
      List.getElem?_set_self hlt]
  | none =>
    by_cases hf : hm.size = (hm.heap.length : Int) - 1
    · exact ⟨_, _, Insert_full hm key d hk hf, Or.inr ⟨rfl, rfl, by simp [priorityOf, hk]⟩⟩
    · have hlt : n + 1 < hm.heap.length := by rw [hg.1] at hf; omega
      refine ⟨_, _, Insert_new hm key d n hg hlt hk, Or.inl ⟨rfl, ?_⟩⟩
      simp [priorityOf, hk, hashGet_hashSet, accumulate]

theorem priorityOf_Insert_other (hm : heapMap) (k key : String) (d : Int) (h : Inv hm)
    (hne : k ≠ key) (e : Option Error) (hm2 : heapMap)
    (hi : Insert hm k d = .ok (e, hm2)) :
    priorityOf hm2 key = priorityOf hm key := by
  obtain ⟨⟨n, hg, hn⟩, hh⟩ := h
  cases hk : hashGet hm.hash k with
  | some a =>
    obtain ⟨node, ha, hkey⟩ := hh k a hk
    rw [Insert_existing hm k d n a node hg hk ha] at hi
    cases hi
    simp only [priorityOf]
    cases hq : hashGet hm.hash key with
    | none => rfl
    | some b =>
      obtain ⟨nb, hb, hkb⟩ := hh key b hq
      have hab : a ≠ b := by
        intro e
        subst e
        rw [ha] at hb
        cases hb
        exact hne (hkey.symm.trans hkb)
      simp only [List.get?_eq_getElem?, List.getElem?_set_ne hab]
  | none =>
    by_cases hf : hm.size = (hm.heap.length : Int) - 1
    · rw [Insert_full hm k d hk hf] at hi
      cases hi
      rfl
    · have hlt : n + 1 < hm.heap.length := by rw [hg.1] at hf; omega
      rw [Insert_new hm k d n hg hlt hk] at hi
      cases hi
      have hne2 : ¬ key = k := fun e => hne e.symm
      simp only [priorityOf, hashGet_hashSet, if_neg hne2]
      cases hq : hashGet hm.hash key with
      | none => rfl
      | some b =>
        obtain ⟨nb, hb, hkb⟩ := hh key b hq
        have hlt : b < hm.mem.length := by
          by_contra hc
          simp only [List.get?_eq_getElem?] at hb
          rw [List.getElem?_eq_none (by omega)] at hb
          cases hb
        simp only [List.get?_eq_getElem?, List.getElem?_append_left hlt]

theorem priorityOf_GetTopNodes (hm : heapMap) (n : Int) (key : String) (h : Inv hm)
    (r : List Ptr × Option Error) (hm2 : heapMap) (hi : GetTopNodes hm n = .ok (r, hm2)) :
    priorityOf hm2 key = priorityOf hm key := by
  obtain ⟨⟨m, hg, hn⟩, hh⟩ := h
  rw [GetTopNodes_eq hm n m hg] at hi
  cases hi
  rfl

theorem wrap64_add_left (a b : Int) : wrap64 (wrap64 a + b) = wrap64 (a + b) := by
  unfold wrap64
  omega

theorem wrap64_add_right (a b : Int) : wrap64 (a + wrap64 b) = wrap64 (a + b) := by
  unfold wrap64
  omega

theorem wrap64_idem (a : Int) : wrap64 (wrap64 a) = wrap64 a := by
  unfold wrap64
  omega

theorem wrap64_of_range (a : Int) (h1 : -2 ^ 63 ≤ a) (h2 : a < 2 ^ 63) : wrap64 a = a := by
  unfold wrap64
  omega

theorem accumulate_cons (v : Option Int) (d : Int) (ds : List Int) :
    accumulate v (d :: ds) = accumulate (accumulate v [d]) ds := rfl

theorem accumulate_append (v : Option Int) (ds es : List Int) :
    accumulate v (ds ++ es) = accumulate (accumulate v ds) es := by
  unfold accumulate
  rw [List.foldl_append]

theorem accumulate_some (ds : List Int) : ∀ x : Int, wrap64 x = x →
    accumulate (some x) ds = some (wrap64 (x + ds.sum)) := by
  induction ds with
  | nil => intro x hx; simp [accumulate, hx]
  | cons d ds ih =>
    intro x hx
    rw [accumulate_cons]
    have : accumulate (some x) [d] = some (wrap64 (x + d)) := rfl
    rw [this, ih _ (wrap64_idem _), wrap64_add_left, List.sum_cons, add_assoc]

theorem accumulate_none (ds : List Int) (hne : ds ≠ []) (hr : ∀ d ∈ ds, wrap64 d = d) :
    accumulate none ds = some (wrap64 ds.sum) := by
  cases ds with
  | nil => exact absurd rfl hne
  | cons d ds =>
    rw [accumulate_cons]
    have : accumulate none [d] = some d := rfl
    rw [this, accumulate_some ds d (hr d (List.mem_cons_self _ _)), List.sum_cons]

theorem okDeltas_mem (key : String) (ops : List Op) : ∀ (hm : heapMap) (d : Int),
    d ∈ okDeltas key hm ops → Op.insert key d ∈ ops := by
  induction ops with
  | nil => intro hm d h; simp [okDeltas] at h
  | cons op ops ih =>
    intro hm d h
    cases op with
    | insert k x =>
      rw [okDeltas] at h
      split at h
      · rename_i hm1 _
        rcases List.mem_append.mp h with h1 | h1
        · split at h1
          · rename_i hk
            simp only [List.mem_singleton] at h1
            subst hk; subst h1
            exact List.mem_cons_self _ _
          · simp at h1
        · exact List.mem_cons_of_mem _ (ih _ _ h1)
      · exact List.mem_cons_of_mem _ (ih _ _ h)
      · simp at h
    | getTopNodes n =>
      rw [okDeltas] at h
      split at h
      · exact List.mem_cons_of_mem _ (ih _ _ h)
      · simp at h

theorem run_cons (hm : heapMap) (op : Op) (ops : List Op) (hm1 : heapMap)
    (h : step hm op = .ok hm1) : run hm (op :: ops) = run hm1 ops := by
  simp only [run, List.foldlM_cons, h, bind, Except.bind]

theorem run_priorityOf (key : String) (ops : List Op) : ∀ (hm : heapMap), Inv hm →
    ∃ s, run hm ops = .ok s ∧ Inv s ∧
      priorityOf s key = accumulate (priorityOf hm key) (okDeltas key hm ops) := by
  induction ops with
  | nil => intro hm h; exact ⟨hm, rfl, h, rfl⟩
  | cons op ops ih =>
    intro hm h
    cases op with
    | insert k d =>
      by_cases hk : k = key
      · subst hk
        obtain ⟨e, hm1, h1, h2⟩ := priorityOf_Insert_same hm k d h
        obtain ⟨e', hm1', h1', hinv, -⟩ := Inv_Insert hm k d h
        rw [h1] at h1'
        cases h1'
        obtain ⟨s, hs, hsi, hsp⟩ := ih hm1 hinv
        refine ⟨s, ?_, hsi, ?_⟩
        · rw [run_cons hm _ ops hm1 (by simp [step, h1, Except.map])]; exact hs
        · rw [hsp, okDeltas, h1]
          rcases h2 with ⟨rfl, hp⟩ | ⟨rfl, rfl, hp⟩
          · simp only [if_true, List.singleton_append]
            rw [accumulate_cons, hp]
          · rfl
      · obtain ⟨e, hm1, h1, hinv, -⟩ := Inv_Insert hm k d h
        have hp := priorityOf_Insert_other hm k key d h hk e hm1 h1
        obtain ⟨s, hs, hsi, hsp⟩ := ih hm1 hinv
        refine ⟨s, ?_, hsi, ?_⟩
        · rw [run_cons hm _ ops hm1 (by simp [step, h1, Except.map])]; exact hs
        · rw [hsp, okDeltas, h1, hp]
          cases e with
          | none => simp [hk]
          | some e => rfl
    | getTopNodes n =>
      obtain ⟨r, hm1, h1, hinv, -⟩ := Inv_GetTopNodes hm n h
      have hp := priorityOf_GetTopNodes hm n key h r hm1 h1
      obtain ⟨s, hs, hsi, hsp⟩ := ih hm1 hinv
      refine ⟨s, ?_, hsi, ?_⟩
      · rw [run_cons hm _ ops hm1 (by simp [step, h1, Except.map])]; exact hs
      · rw [hsp, okDeltas, h1, hp]

theorem Insert_result (hm : heapMap) (key : String) (d : Int) (h : Inv hm) :
    ∃ e hm2, Insert hm key d = .ok (e, hm2) ∧ Inv hm2 ∧ hm2.heap.length = hm.heap.length ∧
      (e = some .heapFull ↔
        (hashGet hm.hash key = none ∧ hm.size = (hm.heap.length : Int) - 1)) ∧
      (e ≠ some .heapFull → e = none) ∧
      (e = none → priorityOf hm2 key = accumulate (priorityOf hm key) [d]) ∧
      (e = none → hashGet hm.hash key = none → hm2.size = hm.size + 1) ∧
      (e = none → hashGet hm.hash key ≠ none → hm2.size = hm.size) ∧
      (e = none → hashGet hm2.hash key ≠ none) ∧
      (e = some .heapFull → hm2 = hm) := by
  obtain ⟨e, hm2, h1, hinv, hlen⟩ := Inv_Insert hm key d h
  obtain ⟨e2, hm3, h2, h3⟩ := priorityOf_Insert_same hm key d h
  rw [h1] at h2
  cases h2
  refine ⟨e, hm2, h1, hinv, hlen, ?_⟩
  obtain ⟨⟨n, hg, hn⟩, hh⟩ := h
  cases hk : hashGet hm.hash key with
  | some a =>
    obtain ⟨node, ha, hkey⟩ := hh key a hk
    rw [Insert_existing hm key d n a node hg hk ha] at h1
    cases h1
    refine ⟨by simp, fun _ => rfl, ?_, by simp, fun _ _ => rfl, ?_, by simp⟩
    · rcases h3 with ⟨-, hp⟩ | ⟨he, -⟩
      · exact fun _ => hp
      · cases he
    · intro _; simp [hk]
  | none =>
    by_cases hf : hm.size = (hm.heap.length : Int) - 1
    · rw [Insert_full hm key d hk hf] at h1
      cases h1
      exact ⟨by simp [hf], by simp, by simp, by simp, by simp, by simp, fun _ => rfl⟩
    · have hlt : n + 1 < hm.heap.length := by rw [hg.1] at hf; omega
      rw [Insert_new hm key d n hg hlt hk] at h1
      cases h1
      refine ⟨by simp [hf], fun _ => rfl, ?_, ?_, by simp, ?_, by simp⟩
      · rcases h3 with ⟨-, hp⟩ | ⟨he, -⟩
        · exact fun _ => hp
        · cases he
      · intro _ _; simp only [hg.1]
      · intro _; simp [hashGet_hashSet]

theorem run_ok (c : Nat) (hc : 1 ≤ c) (ops : List Op) :
    ∃ s, run (NewHeapMap c) ops = .ok s ∧ Inv s ∧ s.heap.length = c := by
  obtain ⟨s, h1, h2, h3⟩ := Inv_run ops (NewHeapMap c) (Inv_NewHeapMap c hc)
  exact ⟨s, h1, h2, by rw [h3]; simp [NewHeapMap]⟩

/-- C1 (code defect).  Capacity 5, keys `c`, `b`, `a`, `d` inserted with priorities
10, 5, 3, 1, then `Insert("d", 100)`: `Top()` still returns `("c", 10)` although the
live key `d` now has priority 101.  `Insert` on a present key sifts down from the root
only, so an entry raised deeper in the tree is never moved up. -/
theorem C1_Top_misses_maximum :
    ∃ s, run (NewHeapMap 5) raiseLeafOps = .ok s ∧
      (Top s).map (fun r => (entryOf s.mem r.1, r.2)) = .ok (some ("c", 10), none) ∧
      GetPriority s "d" = .ok (101, none) :=
  ⟨_, rfl, rfl, rfl⟩

/-- C2 (code defect).  Capacity 5, keys `a`, `b`, `c`, `d` inserted with priorities
10, 5, 3, 4, then `Insert("b", -3)`: every call succeeds, and afterwards slot 1
holds priority 2 while its child in slot 3 holds priority 4, so the heap invariant
fails on the live prefix. -/
theorem C2_Insert_breaks_heap_order :
    ∃ s, run (NewHeapMap 5) lowerInnerOps = .ok s ∧ s.size = 4 ∧
      keyAt s.mem s.heap 1 = 2 ∧ keyAt s.mem s.heap 3 = 4 ∧ ¬ MaxHeap s.mem s.heap 4 :=
  ⟨_, rfl, rfl, rfl, rfl, fun h => absurd (h 1 3 (by decide) (Or.inl rfl)) (by decide)⟩

/-- C3.  After any run of `Insert` and `GetTopNodes` calls on a fresh structure of
capacity at least 1 whose priority arguments are 64-bit integers, a key with at
least one successful `Insert` is found by `GetPriority`, and the priority returned is
the 64-bit wrap of the sum of the arguments of its successful `Insert` calls; when
that sum is itself a 64-bit integer (no overflow) it is exactly the sum. -/
theorem C3_GetPriority_is_sum (c : Nat) (hc : 1 ≤ c) (ops : List Op) (key : String)
    (hr : ∀ k d, Op.insert k d ∈ ops → wrap64 d = d)
    (hne : okDeltas key (NewHeapMap c) ops ≠ []) :
    ∃ s, run (NewHeapMap c) ops = .ok s ∧
      GetPriority s key = .ok (wrap64 (okDeltas key (NewHeapMap c) ops).sum, none) ∧
      (wrap64 (okDeltas key (NewHeapMap c) ops).sum = (okDeltas key (NewHeapMap c) ops).sum →
        GetPriority s key = .ok ((okDeltas key (NewHeapMap c) ops).sum, none)) := by
  obtain ⟨s, h1, h2, h3⟩ := run_priorityOf key ops (NewHeapMap c) (Inv_NewHeapMap c hc)
  have h0 : priorityOf (NewHeapMap c) key = none := rfl
  rw [h0, accumulate_none _ hne
    (fun d hd => hr key d (okDeltas_mem key ops _ d hd))] at h3
  have hg := GetPriority_eq s key h2.2
  rw [h3] at hg
  refine ⟨s, h1, hg, fun e => ?_⟩
  rw [hg, e]

/-- C3 at capacity 5: the key `a` is inserted with 3 and 2 around a top-K query. -/
theorem C3_GetPriority_is_sum_witness :
    1 ≤ 5 ∧ okDeltas "a" (NewHeapMap 5) mixedOps ≠ [] ∧
    ∃ s, run (NewHeapMap 5) mixedOps = .ok s ∧
      GetPriority s "a" = .ok (wrap64 (okDeltas "a" (NewHeapMap 5) mixedOps).sum, none) ∧
      (wrap64 (okDeltas "a" (NewHeapMap 5) mixedOps).sum =
          (okDeltas "a" (NewHeapMap 5) mixedOps).sum →
        GetPriority s "a" = .ok ((okDeltas "a" (NewHeapMap 5) mixedOps).sum, none)) :=
  ⟨by decide, by decide,
    C3_GetPriority_is_sum 5 (by decide) mixedOps "a"
      (by
        intro k d h
        simp only [mixedOps, List.mem_cons, Op.insert.injEq, List.mem_singleton,
          List.not_mem_nil, or_false] at h
        rcases h with ⟨-, rfl⟩ | ⟨-, rfl⟩ | h | ⟨-, rfl⟩ | ⟨-, rfl⟩
        · decide
        · decide
        · cases h
        · decide
        · decide)
      (by decide)⟩

/-- C4.  In every state reached from `NewHeapMap(c)`, `c >= 1`, by `Insert` and
`GetTopNodes` calls, `0 <= size <= c - 1` and every `Insert(key, d)` returns: it
returns the heap-full error exactly when `key` is not in the index map and
`size == c - 1`, and returns `nil` otherwise; a successful `Insert` of a new key
increments `size` by one. -/
theorem C4_Insert_fails_exactly_when_full (c : Nat) (hc : 1 ≤ c) (ops : List Op) :
    ∃ s, run (NewHeapMap c) ops = .ok s ∧ 0 ≤ s.size ∧ s.size ≤ (c : Int) - 1 ∧
      ∀ key d, ∃ e s2, Insert s key d = .ok (e, s2) ∧
        (e = some .heapFull ↔ (hashGet s.hash key = none ∧ s.size = (c : Int) - 1)) ∧
        (e ≠ some .heapFull → e = none) ∧
        (hashGet s.hash key ≠ none → e = none) ∧
        (hashGet s.hash key = none → s.size < (c : Int) - 1 →
          e = none ∧ s2.size = s.size + 1) := by
  obtain ⟨s, h1, h2, h3⟩ := run_ok c hc ops
  obtain ⟨n, hg, hn⟩ := h2.1
  refine ⟨s, h1, by rw [hg.1]; omega, by rw [hg.1]; omega, fun key d => ?_⟩
  obtain ⟨e, s2, i1, -, -, i2, i3, -, i4, -, -, -⟩ := Insert_result s key d h2
  rw [h3] at i2
  refine ⟨e, s2, i1, i2, i3, fun hk => i3 (fun he => hk (i2.mp he).1), fun hk hlt => ?_⟩
  have he : e = none := i3 (fun he => by have := (i2.mp he).2; omega)
  exact ⟨he, i4 he hk⟩

/-- C4 at capacity 2 after one insert: the structure is full. -/
theorem C4_Insert_fails_exactly_when_full_witness :
    1 ≤ 2 ∧
    ∃ s, run (NewHeapMap 2) [.insert "a" 1] = .ok s ∧ 0 ≤ s.size ∧ s.size ≤ ((2 : Nat) : Int) - 1 ∧
      ∀ key d, ∃ e s2, Insert s key d = .ok (e, s2) ∧
        (e = some .heapFull ↔ (hashGet s.hash key = none ∧ s.size = ((2 : Nat) : Int) - 1)) ∧
        (e ≠ some .heapFull → e = none) ∧
        (hashGet s.hash key ≠ none → e = none) ∧
        (hashGet s.hash key = none → s.size < ((2 : Nat) : Int) - 1 →
          e = none ∧ s2.size = s.size + 1) :=
  ⟨by decide, C4_Insert_fails_exactly_when_full 2 (by decide) [.insert "a" 1]⟩

/-- C5.  Whenever `Insert(key, d)` returns an error, the error is heap-full and the
state after the call is the state before it: `size`, the heap array, the index map
and the node records (hence every stored priority) are identical. -/
theorem C5_failed_Insert_changes_nothing (hm hm2 : heapMap) (key : String) (d : Int)
    (e : Error) (h : Insert hm key d = .ok (some e, hm2)) :
    hm2 = hm ∧ e = .heapFull := by
  unfold Insert at h
  split at h
  · split at h
    · cases h
    · simp only [bind, Except.bind, pure, Except.pure] at h
      split at h
      · cases h
      · cases h
  · split at h
    · cases h
      exact ⟨rfl, rfl⟩
    · simp only [bind, Except.bind, pure, Except.pure] at h
      split at h
      · cases h
      · cases h

/-- C5 on a full structure of capacity 2. -/
theorem C5_failed_Insert_changes_nothing_witness :
    Insert fullState "b" 2 = .ok (some .heapFull, fullState) ∧
    (fullState = fullState ∧ Error.heapFull = Error.heapFull) :=
  ⟨rfl, C5_failed_Insert_changes_nothing fullState fullState "b" 2 .heapFull rfl⟩

/-- C6.  In every state reached from `NewHeapMap(c)`, `c >= 1`, and for every key that
is present or for which a slot is free (so that the Inserts succeed), `Insert(k, a)`
followed by `Insert(k, b)` and the single call `Insert(k, a + b)` all succeed and
leave the same `GetPriority(k)`, which is found.  The argument `a + b` is Go's 64-bit
sum, `wrap64 (a + b)`. -/
theorem C6_accumulation_law (c : Nat) (hc : 1 ≤ c) (ops : List Op) :
    ∃ s, run (NewHeapMap c) ops = .ok s ∧
      ∀ key a b, (hashGet s.hash key ≠ none ∨ s.size < (c : Int) - 1) →
        ∃ s1 s2 s3 v, Insert s key a = .ok (none, s1) ∧ Insert s1 key b = .ok (none, s2) ∧
          Insert s key (wrap64 (a + b)) = .ok (none, s3) ∧
          GetPriority s2 key = .ok (v, none) ∧ GetPriority s3 key = .ok (v, none) := by
  obtain ⟨s, h1, h2, h3⟩ := run_ok c hc ops
  refine ⟨s, h1, fun key a b hpre => ?_⟩
  have hnf : ¬ (hashGet s.hash key = none ∧ s.size = (s.heap.length : Int) - 1) := by
    rintro ⟨x, y⟩
    rcases hpre with hp | hp
    · exact hp x
    · rw [h3] at y; omega
  obtain ⟨e1, s1, i1, inv1, -, f1, n1, p1, -, -, k1, -⟩ := Insert_result s key a h2
  have he1 : e1 = none := n1 (fun he => hnf (f1.mp he))
  subst he1
  obtain ⟨e2, s2, i2, inv2, -, f2, n2, p2, -, -, -, -⟩ := Insert_result s1 key b inv1
  have he2 : e2 = none := n2 (fun he => k1 rfl (f2.mp he).1)
  subst he2
  obtain ⟨e3, s3, i3, inv3, -, f3, n3, p3, -, -, -, -⟩ :=
    Insert_result s key (wrap64 (a + b)) h2
  have he3 : e3 = none := n3 (fun he => hnf (f3.mp he))
  subst he3
  have q2 := p2 rfl
  rw [p1 rfl] at q2
  have q3 := p3 rfl
  have g2 := GetPriority_eq s2 key inv2.2
  have g3 := GetPriority_eq s3 key inv3.2
  cases hp : priorityOf s key with
  | none =>
    rw [hp] at q2 q3
    have e2 : priorityOf s2 key = some (wrap64 (a + b)) := q2
    have e3 : priorityOf s3 key = some (wrap64 (a + b)) := q3
    rw [e2] at g2
    rw [e3] at g3
    exact ⟨s1, s2, s3, _, i1, i2, i3, g2, g3⟩
  | some x =>
    rw [hp] at q2 q3
    have e2 : priorityOf s2 key = some (wrap64 (wrap64 (x + a) + b)) := q2
    have e3 : priorityOf s3 key = some (wrap64 (x + wrap64 (a + b))) := q3
    rw [wrap64_add_left] at e2
    rw [wrap64_add_right, ← add_assoc] at e3
    rw [e2] at g2
    rw [e3] at g3
    exact ⟨s1, s2, s3, _, i1, i2, i3, g2, g3⟩

/-- C6 at capacity 5 after the run `mixedOps`. -/
theorem C6_accumulation_law_witness :
    1 ≤ 5 ∧
    ∃ s, run (NewHeapMap 5) mixedOps = .ok s ∧
      ∀ key a b, (hashGet s.hash key ≠ none ∨ s.size < ((5 : Nat) : Int) - 1) →
        ∃ s1 s2 s3 v, Insert s key a = .ok (none, s1) ∧ Insert s1 key b = .ok (none, s2) ∧
          Insert s key (wrap64 (a + b)) = .ok (none, s3) ∧
          GetPriority s2 key = .ok (v, none) ∧ GetPriority s3 key = .ok (v, none) :=
  ⟨by decide, C6_accumulation_law 5 (by decide) mixedOps⟩

/-- C8.  In every state reached from `NewHeapMap(c)`, `c >= 1`, and for every integer
`n` (zero, negative and larger than `size` included), `GetTopNodes(n)` returns and
leaves `size`, the index map, the node records and hence every key's priority
unchanged, and the live prefix `heap[0..size)` after the call is a permutation of the
live prefix before it. -/
theorem C8_GetTopNodes_restores_contents (c : Nat) (hc : 1 ≤ c) (ops : List Op) :
    ∃ s, run (NewHeapMap c) ops = .ok s ∧
      ∀ n : Int, ∃ r s2, GetTopNodes s n = .ok (r, s2) ∧
        s2.size = s.size ∧ s2.hash = s.hash ∧ s2.mem = s.mem ∧
        (∀ key, GetPriority s2 key = GetPriority s key) ∧
        (s2.heap.take s2.size.toNat).Perm (s.heap.take s.size.toNat) := by
  obtain ⟨s, h1, h2, -⟩ := run_ok c hc ops
  refine ⟨s, h1, fun n => ?_⟩
  obtain ⟨m, hg, -⟩ := h2.1
  refine ⟨_, _, GetTopNodes_eq s n m hg, rfl, rfl, rfl, fun key => rfl, ?_⟩
  simp only [hg.1, Int.toNat_ofNat]
  exact topPure_perm s.mem n.toNat s.heap m hg.2.1

/-- C8 at capacity 5 after the run `mixedOps`. -/
theorem C8_GetTopNodes_restores_contents_witness :
    1 ≤ 5 ∧
    ∃ s, run (NewHeapMap 5) mixedOps = .ok s ∧
      ∀ n : Int, ∃ r s2, GetTopNodes s n = .ok (r, s2) ∧
        s2.size = s.size ∧ s2.hash = s.hash ∧ s2.mem = s.mem ∧
        (∀ key, GetPriority s2 key = GetPriority s key) ∧
        (s2.heap.take s2.size.toNat).Perm (s.heap.take s.size.toNat) :=
  ⟨by decide, C8_GetTopNodes_restores_contents 5 (by decide) mixedOps⟩

/-- C9 (code defect).  Capacity 5, keys `p`, `q`, `r`, `s` inserted with priorities
8, 6, 4, 2, then `Insert("s", 7)`: `GetTopNodes(4)` returns the priorities
8, 9, 6, 4, which are not non-increasing.  The cause is the defect of C1 and C2:
`Insert` on a present key leaves the raised entry below a smaller parent. -/
theorem C9_GetTopNodes_out_of_order :
    ∃ s r s2, run (NewHeapMap 5) raiseGrandchildOps = .ok s ∧
      GetTopNodes s 4 = .ok (r, s2) ∧ r.2 = none ∧
      r.1.map (entryOf s.mem) =
        [some ("p", 8), some ("s", 9), some ("q", 6), some ("r", 4)] :=
  ⟨_, _, _, rfl, rfl, rfl, rfl⟩

/-- C7 (counterexample).  The scenario of the specification: capacity 5,
`Insert("a", 3)`, `Insert("b", 5)`, `Insert("a", 2)`.  Two successive calls of
`GetTopNodes(2)` return `b, a` and then `a, b`: the order of the two entries of
equal priority is not stable. -/
theorem C7_equal_priorities_reorder :
    ∃ s r1 s1 r2 s2, run (NewHeapMap 5) tieOps = .ok s ∧
      GetTopNodes s 2 = .ok (r1, s1) ∧ GetTopNodes s1 2 = .ok (r2, s2) ∧
      r1.1.map (entryOf s.mem) = [some ("b", 5), some ("a", 5)] ∧
      r2.1.map (entryOf s1.mem) = [some ("a", 5), some ("b", 5)] ∧ r1.1 ≠ r2.1 :=
  ⟨_, _, _, _, _, rfl, rfl, rfl, rfl, rfl, by decide⟩

/-- C10 (counterexample).  On the empty structure of capacity 5, `GetTopNodes(3)`
returns the empty sequence together with the heap-empty error, not `nil`. -/
theorem C10_empty_structure_reports_error :
    GetTopNodes (NewHeapMap 5) 3 = .ok (([], some .heapEmpty), NewHeapMap 5) ∧
    ¬ ∃ temp s2, GetTopNodes (NewHeapMap 5) 3 = .ok ((temp, none), s2) := by
  have h : GetTopNodes (NewHeapMap 5) 3 = .ok (([], some .heapEmpty), NewHeapMap 5) := rfl
  refine ⟨h, ?_⟩
  rintro ⟨temp, s2, h2⟩
  rw [h] at h2
  cases h2

/-- C10 (amended).  In every state reached from `NewHeapMap(c)`, `c >= 1`, and for
every `n`, `GetTopNodes(n)` returns; when `n > size` the sequence returned has `size`
entries, is a permutation of the live prefix, and comes with the heap-empty error;
when `n <= size` the error is `nil`. -/
theorem C10_exhausted_supply_returns_all_with_error (c : Nat) (hc : 1 ≤ c)
    (ops : List Op) :
    ∃ s, run (NewHeapMap c) ops = .ok s ∧
      ∀ n : Int, ∃ temp err s2, GetTopNodes s n = .ok ((temp, err), s2) ∧
        (s.size < n → err = some .heapEmpty ∧ temp.length = s.size.toNat ∧
          temp.Perm (s.heap.take s.size.toNat)) ∧
        (n ≤ s.size → err = none) := by
  obtain ⟨s, h1, h2, -⟩ := run_ok c hc ops
  refine ⟨s, h1, fun n => ?_⟩
  obtain ⟨m, hg, -⟩ := h2.1
  refine ⟨_, _, _, GetTopNodes_eq s n m hg, fun hlt => ?_, fun hle => ?_⟩
  · have hm : m < n.toNat := by rw [hg.1] at hlt; omega
    have hp := popsPure_perm s.mem n.toNat s.heap m hg.2.1
    have e : m - min n.toNat m = 0 := by omega
    rw [e, List.take_zero, List.append_nil] at hp
    refine ⟨by simp [hm], ?_, ?_⟩
    · rw [(popsPure_length s.mem n.toNat s.heap m).1, hg.1]; simp; omega
    · simpa [hg.1] using hp
  · have hm : ¬ m < n.toNat := by rw [hg.1] at hle; omega
    simp [hm]

/-- C10 (amended) at capacity 5 after the run `mixedOps`. -/
theorem C10_exhausted_supply_returns_all_with_error_witness :
    1 ≤ 5 ∧
    ∃ s, run (NewHeapMap 5) mixedOps = .ok s ∧
      ∀ n : Int, ∃ temp err s2, GetTopNodes s n = .ok ((temp, err), s2) ∧
        (s.size < n → err = some .heapEmpty ∧ temp.length = s.size.toNat ∧
          temp.Perm (s.heap.take s.size.toNat)) ∧
        (n ≤ s.size → err = none) :=
  ⟨by decide, C10_exhausted_supply_returns_all_with_error 5 (by decide) mixedOps⟩

theorem keyAt_swapN (mem : List Node) (l : List Ptr) (i j k : Nat) (hi : i < l.length)
    (hj : j < l.length) :
    keyAt mem (swapN l i j) k =
      if k = j then keyAt mem l i else if k = i then keyAt mem l j else keyAt mem l k := by
  unfold keyAt
  rw [getD_swapN l i j k hi hj]
  split
  · rfl
  · split <;> rfl

theorem siftDown_heap (mem : List Node) (S : Nat → Prop)
    (hS : ∀ i, S i → S (2 * i + 1) ∧ S (2 * i + 2)) :
    ∀ (fuel : Nat) (l : List Ptr) (pos max : Nat),
    max ≤ l.length → max - pos < fuel → S pos →
    (∀ i c, S i → i ≠ pos → c < max → (c = 2 * i + 1 ∨ c = 2 * i + 2) →
      keyAt mem l c ≤ keyAt mem l i) →
    (∀ i c, S i → (pos = 2 * i + 1 ∨ pos = 2 * i + 2) → c < max →
      (c = 2 * pos + 1 ∨ c = 2 * pos + 2) → keyAt mem l c ≤ keyAt mem l i) →
    ∀ i c, S i → c < max → (c = 2 * i + 1 ∨ c = 2 * i + 2) →
      keyAt mem (siftDown mem fuel l pos max) c ≤ keyAt mem (siftDown mem fuel l pos max) i := by
  intro fuel
  induction fuel with
  | zero => intro l pos max _ h; omega
  | succ fuel ih =>
    intro l pos max hlen hfuel hpos H1 H2
    rw [siftDown_succ]
    cases hpick : pickChild mem l pos max with
    | none =>
      simp only []
      intro i c hi hc hch
      by_cases hip : i = pos
      · subst hip
        have := pickChild_none mem l i max hpick
        rcases hch with rfl | rfl
        · exact this.1 hc
        · exact this.2 hc
      · exact H1 i c hi hip hc hch
    | some m =>
      simp only []
      obtain ⟨hm1, hm2, hm3, hm4, hm5⟩ := pickChild_some mem l pos max m hpick
      have hposlt : pos < l.length := by omega
      have hmlt : m < l.length := by omega
      have hk : ∀ k, keyAt mem (swapN l pos m) k =
          if k = m then keyAt mem l pos else if k = pos then keyAt mem l m else keyAt mem l k :=
        fun k => keyAt_swapN mem l pos m k hposlt hmlt
      have hSm : S m := by
        rcases hm1 with rfl | rfl
        · exact (hS pos hpos).1
        · exact (hS pos hpos).2
      apply ih (swapN l pos m) m max (by rw [length_swapN]; exact hlen) (by omega) hSm
      · intro i c hi him hc hch
        rw [hk c, hk i]
        by_cases hip : i = pos
        · subst hip
          have hcm : c = m ∨ (c ≠ m ∧ c ≠ i) := by omega
          rcases hcm with rfl | ⟨h1, h2⟩
          · rw [if_pos rfl, if_neg him, if_pos rfl]
            omega
          · rw [if_neg h1, if_neg h2, if_neg (by omega), if_pos rfl]
            rcases hch with rfl | rfl
            · exact hm4 hc
            · exact hm5 hc
        · rw [if_neg him, if_neg hip]
          by_cases hcp : c = pos
          · subst hcp
            rw [if_neg (by omega), if_pos rfl]
            exact H2 i m hi hch hm2 hm1
          · have hcm : c ≠ m := by omega
            rw [if_neg hcm, if_neg hcp]
            exact H1 i c hi hip hc hch
      · intro i c hi hmi hc hch
        have hip : i = pos := by omega
        subst hip
        rw [hk c, hk i, if_neg (by omega), if_neg (by omega), if_neg (by omega), if_pos rfl]
        exact H1 m c hSm (by omega) hc hch

theorem MaxHeap_popPure (mem : List Node) (l : List Ptr) (n : Nat) (hn : n + 1 ≤ l.length)
    (h : MaxHeap mem l (n + 1)) : MaxHeap mem (popPure mem l n) n := by
  unfold popPure
  intro i c hc hch
  have hk : ∀ k, k ≠ 0 → keyAt mem (l.set 0 (l.getD n none)) k = keyAt mem l k := by
    intro k hk
    unfold keyAt
    rw [getD_set_ptr _ _ _ _ (by omega), if_neg hk]
  apply siftDown_heap mem (fun _ => True) (fun _ _ => ⟨trivial, trivial⟩) (n + 1) _ 0 n
    (by simp; omega) (by omega) trivial
  · intro i c _ hi hc hch
    rw [hk c (by omega), hk i hi]
    exact h i c (by omega) hch
  · intro i c _ hpos
    omega
  · trivial
  · exact hc
  · exact hch

theorem siftUp_heap (mem : List Node) : ∀ (fuel : Nat) (l : List Ptr) (cur n : Nat),
    n ≤ l.length → cur < n → cur < fuel →
    (∀ i c, c < n → c ≠ cur → (c = 2 * i + 1 ∨ c = 2 * i + 2) →
      keyAt mem l c ≤ keyAt mem l i) →
    (∀ i c, c < n → (c = 2 * cur + 1 ∨ c = 2 * cur + 2) →
      (cur = 2 * i + 1 ∨ cur = 2 * i + 2) → keyAt mem l c ≤ keyAt mem l i) →
    MaxHeap mem (siftUp mem fuel l cur) n := by
  intro fuel
  induction fuel with
  | zero => intro l cur n _ _ h; omega
  | succ fuel ih =>
    intro l cur n hlen hcur hfuel H1 H2
    rw [siftUp]
    by_cases hgt : keyAt mem l cur > keyAt mem l ((cur - 1) / 2)
    · rw [if_pos hgt]
      have hne : cur ≠ 0 := by
        intro h0; subst h0; simp at hgt
      have hp : cur = 2 * ((cur - 1) / 2) + 1 ∨ cur = 2 * ((cur - 1) / 2) + 2 := by omega
      generalize hpdef : (cur - 1) / 2 = p at hgt hp ⊢
      have hk : ∀ k, keyAt mem (swapN l cur p) k =
          if k = p then keyAt mem l cur else if k = cur then keyAt mem l p else keyAt mem l k :=
        fun k => keyAt_swapN mem l cur p k (by omega) (by omega)
      apply ih (swapN l cur p) p n (by rw [length_swapN]; exact hlen) (by omega) (by omega)
      · intro i c hc hcp hch
        rw [hk c, hk i, if_neg hcp]
        by_cases hcc : c = cur
        · subst hcc
          have hip : i = p := by omega
          subst hip
          rw [if_pos rfl, if_pos rfl]
          omega
        · rw [if_neg hcc]
          by_cases hip : i = p
          · subst hip
            rw [if_pos rfl]
            have := H1 i c hc hcc hch
            omega
          · rw [if_neg hip]
            by_cases hic : i = cur
            · subst hic
              rw [if_pos rfl]
              exact H2 p c hc hch hp
            · rw [if_neg hic]
              exact H1 i c hc hcc hch
      · intro i c hc hch hpi
        have hcp : c ≠ p := by omega
        have hip : i ≠ p := by omega
        have hic : i ≠ cur := by omega
        rw [hk c, hk i, if_neg hcp, if_neg hip, if_neg hic]
        have h1 := H1 i p (by omega) (by omega) hpi
        by_cases hcc : c = cur
        · subst hcc
          rw [if_pos rfl]
          exact h1
        · rw [if_neg hcc]
          have h2 := H1 p c hc hcc hch
          omega
    · rw [if_neg hgt]
      intro i c hc hch
      by_cases hcc : c = cur
      · subst hcc
        have hip : (c - 1) / 2 = i := by omega
        rw [hip] at hgt
        omega
      · exact H1 i c hc hcc hch

theorem MaxHeap_insertPure (mem : List Node) (l : List Ptr) (n : Nat) (p : Ptr)
    (hn : n < l.length) (h : MaxHeap mem l n) : MaxHeap mem (insertPure mem l n p) (n + 1) := by
  unfold insertPure
  have hk : ∀ k, k ≠ n → keyAt mem (l.set n p) k = keyAt mem l k := by
    intro k hk
    unfold keyAt
    rw [getD_set_ptr _ _ _ _ hn, if_neg hk]
  apply siftUp_heap mem (n + 2) _ n (n + 1) (by simp; omega) (by omega) (by omega)
  · intro i c hc hcn hch
    rw [hk c hcn, hk i (by omega)]
    exact h i c (by omega) hch
  · intro i c hc hch
    omega

theorem MaxHeap_root (mem : List Node) (l : List Ptr) (n : Nat) (h : MaxHeap mem l n) :
    ∀ i, i < n → keyAt mem l i ≤ keyAt mem l 0 := by
  intro i
  induction i using Nat.strong_induction_on with
  | _ i ih =>
    intro hi
    by_cases h0 : i = 0
    · subst h0; exact le_refl _
    · have h1 := h ((i - 1) / 2) i hi (by omega)
      have h2 := ih ((i - 1) / 2) (by omega) (by omega)
      omega

theorem MaxHeap_insertsPure (mem : List Node) : ∀ (ps l : List Ptr) (n : Nat),
    n + ps.length ≤ l.length → MaxHeap mem l n →
    MaxHeap mem (insertsPure mem ps l n) (n + ps.length) := by
  intro ps
  induction ps with
  | nil => intro l n _ h; simpa [insertsPure] using h
  | cons p ps ih =>
    intro l n hn h
    simp only [List.length_cons] at hn
    rw [insertsPure]
    have e : n + (p :: ps).length = n + 1 + ps.length := by simp; omega
    rw [e]
    exact ih _ (n + 1) (by rw [length_insertPure]; omega)
      (MaxHeap_insertPure mem l n p (by omega) h)

theorem mem_take_keyAt (mem : List Node) (l : List Ptr) (n : Nat) (hn : n ≤ l.length)
    (y : Ptr) (hy : y ∈ l.take n) : ∃ i, i < n ∧ prioOf mem y = keyAt mem l i := by
  obtain ⟨i, hi, rfl⟩ := List.getElem_of_mem hy
  have hi2 : i < n := by simp at hi; omega
  refine ⟨i, hi2, ?_⟩
  unfold keyAt
  congr 1
  simp [List.getD_eq_getElem?_getD, List.getElem?_eq_getElem (show i < l.length by omega)]

theorem popsPure_sorted (mem : List Node) : ∀ (todo : Nat) (l : List Ptr) (n : Nat),
    n ≤ l.length → MaxHeap mem l n →
    List.Pairwise (fun a b => prioOf mem b ≤ prioOf mem a) (popsPure mem todo l n).1 ∧
    (∀ x ∈ (popsPure mem todo l n).1,
      ∀ y ∈ (popsPure mem todo l n).2.take (n - min todo n), prioOf mem y ≤ prioOf mem x) ∧
    MaxHeap mem (popsPure mem todo l n).2 (n - min todo n) := by
  intro todo
  induction todo with
  | zero => intro l n _ h; simpa [popsPure] using h
  | succ todo ih =>
    intro l n hn h
    cases n with
    | zero => simpa [popsPure] using h
    | succ n =>
      have hlen : n ≤ (popPure mem l n).length := by rw [length_popPure]; omega
      obtain ⟨i1, i2, i3⟩ := ih (popPure mem l n) n hlen (MaxHeap_popPure mem l n hn h)
      have e : n + 1 - min (todo + 1) (n + 1) = n - min todo n := by omega
      have hroot : ∀ y ∈ (popsPure mem todo (popPure mem l n) n).1 ++
          (popsPure mem todo (popPure mem l n) n).2.take (n - min todo n),
          prioOf mem y ≤ prioOf mem (l.getD 0 none) := by
        intro y hy
        have h1 := (popsPure_perm mem todo (popPure mem l n) n hlen).subset hy
        have h2 := (popPure_perm mem l n hn).subset (List.mem_cons_of_mem _ h1)
        obtain ⟨i, hi, hk⟩ := mem_take_keyAt mem l (n + 1) hn y h2
        rw [hk]
        exact MaxHeap_root mem l (n + 1) h i hi
      simp only [popsPure, e]
      refine ⟨List.Pairwise.cons (fun y hy => hroot y (List.mem_append_left _ hy)) i1, ?_, i3⟩
      intro x hx y hy
      rcases List.mem_cons.mp hx with rfl | hx
      · exact hroot y (List.mem_append_right _ hy)
      · exact i2 x hx y hy

theorem top_prefix_unique (A1 B1 A2 B2 : List Int) (hp : (A1 ++ B1).Perm (A2 ++ B2))
    (hl : A1.length = A2.length)
    (s1 : List.Pairwise (fun a b => b ≤ a) A1) (s2 : List.Pairwise (fun a b => b ≤ a) A2)
    (b1 : ∀ a ∈ A1, ∀ b ∈ B1, b ≤ a) (b2 : ∀ a ∈ A2, ∀ b ∈ B2, b ≤ a) : A1 = A2 := by
  have key : ∀ (A B : List Int), List.Pairwise (fun a b => b ≤ a) A →
      (∀ a ∈ A, ∀ b ∈ B, b ≤ a) →
      List.Sorted (fun a b : Int => b ≤ a) (A ++ B.insertionSort (fun a b => b ≤ a)) := by
    intro A B hA hB
    refine List.pairwise_append.mpr ⟨hA, ?_, ?_⟩
    · haveI : IsTotal Int (fun a b => b ≤ a) := ⟨fun a b => le_total b a⟩
      haveI : IsTrans Int (fun a b => b ≤ a) := ⟨fun a b c h1 h2 => le_trans h2 h1⟩
      exact List.sorted_insertionSort (fun a b : Int => b ≤ a) B
    · intro a ha b hb
      exact hB a ha b ((List.perm_insertionSort _ B).subset hb)
  have hperm : (A1 ++ B1.insertionSort (fun a b => b ≤ a)).Perm
      (A2 ++ B2.insertionSort (fun a b => b ≤ a)) := by
    refine ((List.perm_insertionSort _ B1).append_left A1).trans ?_
    exact hp.trans ((List.perm_insertionSort _ B2).append_left A2).symm
  haveI : IsAntisymm Int (fun a b => b ≤ a) := ⟨fun a b h1 h2 => le_antisymm h2 h1⟩
  have heq := List.eq_of_perm_of_sorted hperm (key A1 B1 s1 b1) (key A2 B2 s2 b2)
  exact List.append_inj_left heq hl

theorem map_injOn_eq (f : Ptr → Int) : ∀ (l1 l2 : List Ptr),
    (∀ p ∈ l1, ∀ q ∈ l2, f p = f q → p = q) → l1.map f = l2.map f → l1 = l2 := by
  intro l1
  induction l1 with
  | nil => intro l2 _ h; cases l2 with
    | nil => rfl
    | cons b t => simp at h
  | cons a t ih =>
    intro l2 hinj h
    cases l2 with
    | nil => simp at h
    | cons b t2 =>
      simp only [List.map_cons, List.cons.injEq] at h
      have e1 : a = b := hinj a (List.mem_cons_self _ _) b (List.mem_cons_self _ _) h.1
      have e2 : t = t2 := ih t2
        (fun p hp q hq => hinj p (List.mem_cons_of_mem _ hp) q (List.mem_cons_of_mem _ hq)) h.2
      rw [e1, e2]

theorem MaxHeap_topPure (mem : List Node) (todo : Nat) (l : List Ptr) (n : Nat)
    (hn : n ≤ l.length) (h : MaxHeap mem l n) : MaxHeap mem (topPure mem todo l n) n := by
  unfold topPure
  have hlen := popsPure_length mem todo l n
  have hs := (popsPure_sorted mem todo l n hn h).2.2
  have := MaxHeap_insertsPure mem (popsPure mem todo l n).1.reverse (popsPure mem todo l n).2
    (n - min todo n) (by simp only [List.length_reverse, hlen.1, hlen.2]; omega) hs
  have e : n - min todo n + (popsPure mem todo l n).1.reverse.length = n := by
    simp only [List.length_reverse, hlen.1]; omega
  rw [e] at this
  exact this

theorem popsPure_same_priorities (mem : List Node) (todo : Nat) (l l2 : List Ptr) (n : Nat)
    (hn : n ≤ l.length) (hn2 : n ≤ l2.length) (h : MaxHeap mem l n) (h2 : MaxHeap mem l2 n)
    (hp : (l2.take n).Perm (l.take n)) :
    (popsPure mem todo l n).1.map (prioOf mem) = (popsPure mem todo l2 n).1.map (prioOf mem) := by
  obtain ⟨a1, a2, -⟩ := popsPure_sorted mem todo l n hn h
  obtain ⟨b1, b2, -⟩ := popsPure_sorted mem todo l2 n hn2 h2
  have p1 := popsPure_perm mem todo l n hn
  have p2 := popsPure_perm mem todo l2 n hn2
  have q : (((popsPure mem todo l n).1.map (prioOf mem)) ++
        (((popsPure mem todo l n).2.take (n - min todo n)).map (prioOf mem))).Perm
      (((popsPure mem todo l2 n).1.map (prioOf mem)) ++
        (((popsPure mem todo l2 n).2.take (n - min todo n)).map (prioOf mem))) := by
    rw [← List.map_append, ← List.map_append]
    exact (p1.trans (hp.symm.trans p2.symm)).map _
  refine top_prefix_unique _ _ _ _ q ?_ ?_ ?_ ?_ ?_
  · simp only [List.length_map, (popsPure_length mem todo l n).1,
      (popsPure_length mem todo l2 n).1]
  · exact List.pairwise_map.mpr a1
  · exact List.pairwise_map.mpr b1
  · intro a ha b hb
    obtain ⟨x, hx, rfl⟩ := List.mem_map.mp ha
    obtain ⟨y, hy, rfl⟩ := List.mem_map.mp hb
    exact a2 x hx y hy
  · intro a ha b hb
    obtain ⟨x, hx, rfl⟩ := List.mem_map.mp ha
    obtain ⟨y, hy, rfl⟩ := List.mem_map.mp hb
    exact b2 x hx y hy

theorem popsPure_subset (mem : List Node) (todo : Nat) (l : List Ptr) (n : Nat)
    (hn : n ≤ l.length) : ∀ p ∈ (popsPure mem todo l n).1, p ∈ l.take n :=
  fun _ hp => (popsPure_perm mem todo l n hn).subset (List.mem_append_left _ hp)

/-- C7 (amended).  In every state reached from `NewHeapMap(c)`, `c >= 1`, whose live
prefix satisfies the max-heap property, two successive calls of `GetTopNodes(n)` with
no call in between both return, with the same error value and with sequences of the
same priorities position by position; `size` is unchanged.  If no two live entries
have equal priority, the two sequences are identical entry by entry. -/
theorem C7_repeated_GetTopNodes_same_priorities (c : Nat) (hc : 1 ≤ c) (ops : List Op)
    (s : heapMap) (hrun : run (NewHeapMap c) ops = .ok s)
    (hheap : MaxHeap s.mem s.heap s.size.toNat) (n : Int) :
    ∃ r1 s1 r2 s2, GetTopNodes s n = .ok (r1, s1) ∧ GetTopNodes s1 n = .ok (r2, s2) ∧
      r1.1.map (prioOf s.mem) = r2.1.map (prioOf s1.mem) ∧ r1.2 = r2.2 ∧
      s1.size = s.size ∧ s2.size = s.size ∧
      ((∀ p ∈ s.heap.take s.size.toNat, ∀ q ∈ s.heap.take s.size.toNat,
          prioOf s.mem p = prioOf s.mem q → p = q) → r1.1 = r2.1) := by
  obtain ⟨s0, h1, hinv, -⟩ := run_ok c hc ops
  rw [hrun] at h1
  cases h1
  obtain ⟨m, hg, -⟩ := hinv.1
  have hsz : s.size.toNat = m := by rw [hg.1]; simp
  rw [hsz] at hheap ⊢
  have hg1 : Good { s with heap := topPure s.mem n.toNat s.heap m } m :=
    ⟨hg.1, LiveOK_topPure s.mem n.toNat s.heap m hg.2⟩
  have hperm := topPure_perm s.mem n.toNat s.heap m hg.2.1
  have hlen : m ≤ (topPure s.mem n.toNat s.heap m).length := by
    rw [length_topPure]; exact hg.2.1
  have hheap1 := MaxHeap_topPure s.mem n.toNat s.heap m hg.2.1 hheap
  have heq := popsPure_same_priorities s.mem n.toNat s.heap
    (topPure s.mem n.toNat s.heap m) m hg.2.1 hlen hheap hheap1 hperm
  refine ⟨_, _, _, _, GetTopNodes_eq s n m hg, GetTopNodes_eq _ n m hg1, heq, rfl, rfl, rfl,
    fun hinj => ?_⟩
  refine map_injOn_eq (prioOf s.mem) _ _ (fun p hp q hq => ?_) heq
  have hp2 := popsPure_subset s.mem n.toNat s.heap m hg.2.1 p hp
  have hq2 := hperm.subset (popsPure_subset s.mem n.toNat _ m hlen q hq)
  exact hinj p hp2 q hq2

/-- C7 (amended) at the state `rankedState`, a max-heap reached by `rankedOps`. -/
theorem C7_repeated_GetTopNodes_same_priorities_witness :
    1 ≤ 5 ∧ run (NewHeapMap 5) rankedOps = .ok rankedState ∧
    MaxHeap rankedState.mem rankedState.heap rankedState.size.toNat ∧
    ∃ r1 s1 r2 s2, GetTopNodes rankedState 2 = .ok (r1, s1) ∧
      GetTopNodes s1 2 = .ok (r2, s2) ∧
      r1.1.map (prioOf rankedState.mem) = r2.1.map (prioOf s1.mem) ∧ r1.2 = r2.2 ∧
      s1.size = rankedState.size ∧ s2.size = rankedState.size ∧
      ((∀ p ∈ rankedState.heap.take rankedState.size.toNat,
          ∀ q ∈ rankedState.heap.take rankedState.size.toNat,
          prioOf rankedState.mem p = prioOf rankedState.mem q → p = q) → r1.1 = r2.1) := by
  have hheap : MaxHeap rankedState.mem rankedState.heap rankedState.size.toNat := by
    intro i c hc hch
    have hc3 : c < 3 := hc
    have hi : i = 0 := by omega
    subst hi
    rcases hch with rfl | rfl
    · decide
    · decide
  exact ⟨by decide, rfl, hheap,
    C7_repeated_GetTopNodes_same_priorities 5 (by decide) rankedOps rankedState rfl hheap 2⟩

theorem accumulate_some_isSome (ds : List Int) : ∀ x : Int,
    ∃ v, accumulate (some x) ds = some v := by
  induction ds with
  | nil => intro x; exact ⟨x, rfl⟩
  | cons d ds ih =>
    intro x
    rw [accumulate_cons]
    exact ih (wrap64 (x + d))

theorem accumulate_none_isSome (ds : List Int) (hne : ds ≠ []) :
    ∃ v, accumulate none ds = some v := by
  cases ds with
  | nil => exact absurd rfl hne
  | cons d ds =>
    rw [accumulate_cons]
    exact accumulate_some_isSome ds d

/-- C11.  In every state reached from `NewHeapMap(c)`, `c >= 1`, `Top()` returns: with
the heap-empty error (and a nil entry) exactly when `size == 0`, and otherwise with the
pointer in `heap[0]`, which is a valid entry, and a nil error.  `Top` only reads: it
is a function of the state and produces no new state, so `size`, the heap array, the
index map and the priorities after the call are those before it. -/
theorem C11_Top_fails_iff_empty (c : Nat) (hc : 1 ≤ c) (ops : List Op) :
    ∃ s, run (NewHeapMap c) ops = .ok s ∧
      (s.size = 0 → Top s = .ok (none, some .heapEmpty)) ∧
      (s.size ≠ 0 → Top s = .ok (s.heap.getD 0 none, none) ∧
        ValidPtr s.mem (s.heap.getD 0 none)) ∧
      (∃ r, Top s = .ok r ∧ (r.2 = some .heapEmpty ↔ s.size = 0) ∧
        (r.2 = none ↔ s.size ≠ 0)) := by
  obtain ⟨s, h1, h2, -⟩ := run_ok c hc ops
  obtain ⟨n, hg, hn⟩ := h2.1
  have e0 : s.size = 0 → Top s = .ok (none, some .heapEmpty) := by
    intro h; unfold Top; rw [if_pos h]
  have e1 : s.size ≠ 0 → Top s = .ok (s.heap.getD 0 none, none) := by
    intro h
    unfold Top
    rw [if_neg h]
    have := heapGet_ok s.heap 0 (by omega)
    simp only [Nat.cast_zero] at this
    rw [this]
    rfl
  refine ⟨s, h1, e0, fun h => ⟨e1 h, hg.2.2 0 (by rw [hg.1] at h; omega)⟩, ?_⟩
  by_cases h : s.size = 0
  · exact ⟨_, e0 h, by simp [h], by simp [h]⟩
  · exact ⟨_, e1 h, by simp [h], by simp [h]⟩

/-- C11 at capacity 5 after the run `mixedOps`. -/
theorem C11_Top_fails_iff_empty_witness :
    1 ≤ 5 ∧
    ∃ s, run (NewHeapMap 5) mixedOps = .ok s ∧
      (s.size = 0 → Top s = .ok (none, some .heapEmpty)) ∧
      (s.size ≠ 0 → Top s = .ok (s.heap.getD 0 none, none) ∧
        ValidPtr s.mem (s.heap.getD 0 none)) ∧
      (∃ r, Top s = .ok r ∧ (r.2 = some .heapEmpty ↔ s.size = 0) ∧
        (r.2 = none ↔ s.size ≠ 0)) :=
  ⟨by decide, C11_Top_fails_iff_empty 5 (by decide) mixedOps⟩

/-- C12.  After any run of `Insert` and `GetTopNodes` calls on a fresh structure of
capacity at least 1, `GetPriority(k)` returns: with the key-not-found error (and
value 0) when no `Insert(k, _)` of the run succeeded, and with a nil error when at
least one did.  Failed inserts do not count, and a key once inserted stays found
across later calls. -/
theorem C12_GetPriority_fails_iff_never_inserted (c : Nat) (hc : 1 ≤ c) (ops : List Op)
    (key : String) :
    ∃ s, run (NewHeapMap c) ops = .ok s ∧
      (okDeltas key (NewHeapMap c) ops = [] →
        GetPriority s key = .ok (0, some .keyNotInHeap)) ∧
      (okDeltas key (NewHeapMap c) ops ≠ [] → ∃ v, GetPriority s key = .ok (v, none)) := by
  obtain ⟨s, h1, h2, h3⟩ := run_priorityOf key ops (NewHeapMap c) (Inv_NewHeapMap c hc)
  have h0 : priorityOf (NewHeapMap c) key = none := rfl
  rw [h0] at h3
  have hg := GetPriority_eq s key h2.2
  refine ⟨s, h1, fun he => ?_, fun hne => ?_⟩
  · rw [he] at h3
    have : priorityOf s key = none := h3
    rw [this] at hg
    exact hg
  · obtain ⟨v, hv⟩ := accumulate_none_isSome _ hne
    rw [hv] at h3
    rw [h3] at hg
    exact ⟨v, hg⟩

/-- C12 at capacity 2: `a` is inserted, `b` is refused, `c` is never inserted. -/
theorem C12_GetPriority_fails_iff_never_inserted_witness :
    1 ≤ 2 ∧
    ∃ s, run (NewHeapMap 2) [.insert "a" 1, .insert "b" 2] = .ok s ∧
      (okDeltas "b" (NewHeapMap 2) [.insert "a" 1, .insert "b" 2] = [] →
        GetPriority s "b" = .ok (0, some .keyNotInHeap)) ∧
      (okDeltas "b" (NewHeapMap 2) [.insert "a" 1, .insert "b" 2] ≠ [] →
        ∃ v, GetPriority s "b" = .ok (v, none)) :=
  ⟨by decide, C12_GetPriority_fails_iff_never_inserted 2 (by decide)
    [.insert "a" 1, .insert "b" 2] "b"⟩

/-- C14 (code defect).  On `NewHeapMap(0)` the call `Insert("a", 3)` does not return
the heap-full error: the guard `size == len(heap) - 1` compares 0 with -1, the call
goes on to `insert` and the write `heap[0] = node` panics with index out of range.
On `NewHeapMap(1)` every `Insert` returns heap-full and leaves the structure empty,
as the claim says. -/
theorem C14_Insert_on_capacity_zero_panics :
    Insert (NewHeapMap 0) "a" 3 = .error .indexOutOfRange ∧
    ∀ key d, Insert (NewHeapMap 1) key d = .ok (some .heapFull, NewHeapMap 1) :=
  ⟨rfl, fun key d => Insert_full (NewHeapMap 1) key d rfl rfl⟩

theorem rankedState_live : LiveOK rankedState.mem rankedState.heap 3 := by
  refine ⟨by decide, fun i hi => ?_⟩
  have : i = 0 ∨ i = 1 ∨ i = 2 := by omega
  rcases this with rfl | rfl | rfl
  · exact ⟨1, rfl, by decide⟩
  · exact ⟨0, rfl, by decide⟩
  · exact ⟨2, rfl, by decide⟩

theorem rankedState_heap : MaxHeap rankedState.mem rankedState.heap 3 := by
  intro i c hc hch
  have hi : i = 0 := by omega
  subst hi
  rcases hch with rfl | rfl
  · decide
  · decide

theorem top_prefix_eq_take (A B L : List Int) (hp : (A ++ B).Perm L)
    (s1 : List.Pairwise (fun a b => b ≤ a) A) (b1 : ∀ a ∈ A, ∀ b ∈ B, b ≤ a) :
    A = (L.insertionSort (fun a b => b ≤ a)).take A.length := by
  haveI : IsTotal Int (fun a b => b ≤ a) := ⟨fun a b => le_total b a⟩
  haveI : IsTrans Int (fun a b => b ≤ a) := ⟨fun a b c h1 h2 => le_trans h2 h1⟩
  have hs : List.Pairwise (fun a b : Int => b ≤ a) (L.insertionSort (fun a b => b ≤ a)) :=
    List.sorted_insertionSort (fun a b : Int => b ≤ a) L
  have hlen : A.length ≤ (L.insertionSort (fun a b => b ≤ a)).length := by
    rw [List.length_insertionSort, ← hp.length_eq, List.length_append]
    omega
  rw [← List.take_append_drop A.length (L.insertionSort (fun a b => b ≤ a))] at hs
  obtain ⟨t1, -, t3⟩ := List.pairwise_append.mp hs
  refine top_prefix_unique A B _ ((L.insertionSort (fun a b => b ≤ a)).drop A.length)
    ?_ ?_ s1 t1 b1 t3
  · rw [List.take_append_drop]
    exact hp.trans (List.perm_insertionSort _ L).symm
  · rw [List.length_take]
    omega

/-- C18.  In a state with `m` live valid entries whose live prefix is a max-heap,
`GetTopNodes(n)` returns for every integer `n` and leaves `size` unchanged and the
live prefix a max-heap.  So does each of its steps: a `pop` leaves a max-heap on the
`m - 1` remaining slots, an `insert` of a valid node leaves one on `m + 1` slots. -/
theorem C18_GetTopNodes_preserves_heap (hm : heapMap) (m : Nat) (n : Int)
    (hs : hm.size = (m : Int)) (hl : LiveOK hm.mem hm.heap m)
    (hh : MaxHeap hm.mem hm.heap m) :
    (∃ r s2, GetTopNodes hm n = .ok (r, s2) ∧ s2.size = hm.size ∧
      MaxHeap s2.mem s2.heap m) ∧
    (∀ k : Nat, m = k + 1 → ∃ p s1, pop hm = .ok ((p, none), s1) ∧ s1.size = (k : Int) ∧
      MaxHeap s1.mem s1.heap k) ∧
    (∀ p, ValidPtr hm.mem p → m < hm.heap.length →
      ∃ s1, insert hm p = .ok s1 ∧ s1.size = (m : Int) + 1 ∧
        MaxHeap s1.mem s1.heap (m + 1)) := by
  have hg : Good hm m := ⟨hs, hl⟩
  refine ⟨⟨_, _, GetTopNodes_eq hm n m hg, rfl, ?_⟩, fun k hk => ?_, fun p hp hlt => ?_⟩
  · exact MaxHeap_topPure hm.mem n.toNat hm.heap m hl.1 hh
  · subst hk
    exact ⟨_, _, pop_eq_pure hm k hg, rfl, MaxHeap_popPure hm.mem hm.heap k hl.1 hh⟩
  · exact ⟨_, insert_eq_pure hm p m hg hlt hp, rfl,
      MaxHeap_insertPure hm.mem hm.heap m p hlt hh⟩

/-- C18 at the max-heap `rankedState` with `n = 2`. -/
theorem C18_GetTopNodes_preserves_heap_witness :
    rankedState.size = ((3 : Nat) : Int) ∧ LiveOK rankedState.mem rankedState.heap 3 ∧
    MaxHeap rankedState.mem rankedState.heap 3 ∧
    ((∃ r s2, GetTopNodes rankedState 2 = .ok (r, s2) ∧ s2.size = rankedState.size ∧
      MaxHeap s2.mem s2.heap 3) ∧
    (∀ k : Nat, 3 = k + 1 → ∃ p s1, pop rankedState = .ok ((p, none), s1) ∧ s1.size = (k : Int) ∧
      MaxHeap s1.mem s1.heap k) ∧
    (∀ p, ValidPtr rankedState.mem p → 3 < rankedState.heap.length →
      ∃ s1, insert rankedState p = .ok s1 ∧ s1.size = ((3 : Nat) : Int) + 1 ∧
        MaxHeap s1.mem s1.heap (3 + 1))) :=
  ⟨rfl, rankedState_live, rankedState_heap,
    C18_GetTopNodes_preserves_heap rankedState 3 2 rfl rankedState_live rankedState_heap⟩

/-- C15.  In a state with `m` live valid entries whose live prefix is a max-heap,
`GetTopNodes(n)` returns `k = min(max(n, 0), m)` entries with a nil error unless
`n > m`; their priorities are non-increasing and are exactly the first `k` elements
of the live priorities sorted in descending order; the entries are live entries and
no live entry left out has a higher priority than one returned. -/
theorem C15_GetTopNodes_is_top_k (hm : heapMap) (m : Nat) (n : Int)
    (hs : hm.size = (m : Int)) (hl : LiveOK hm.mem hm.heap m)
    (hh : MaxHeap hm.mem hm.heap m) :
    ∃ r s2, GetTopNodes hm n = .ok (r, s2) ∧ r.1.length = min n.toNat m ∧
      List.Pairwise (fun a b => b ≤ a) (r.1.map (prioOf hm.mem)) ∧
      r.1.map (prioOf hm.mem) =
        (((hm.heap.take m).map (prioOf hm.mem)).insertionSort (fun a b => b ≤ a)).take
          (min n.toNat m) ∧
      (∃ rest, (r.1 ++ rest).Perm (hm.heap.take m) ∧
        ∀ x ∈ r.1, ∀ y ∈ rest, prioOf hm.mem y ≤ prioOf hm.mem x) := by
  have hg : Good hm m := ⟨hs, hl⟩
  obtain ⟨a1, a2, -⟩ := popsPure_sorted hm.mem n.toNat hm.heap m hl.1 hh
  have hlen := (popsPure_length hm.mem n.toNat hm.heap m).1
  have hperm := popsPure_perm hm.mem n.toNat hm.heap m hl.1
  refine ⟨_, _, GetTopNodes_eq hm n m hg, hlen, List.pairwise_map.mpr a1, ?_, _, hperm, a2⟩
  have := top_prefix_eq_take
    ((popsPure hm.mem n.toNat hm.heap m).1.map (prioOf hm.mem))
    (((popsPure hm.mem n.toNat hm.heap m).2.take (m - min n.toNat m)).map (prioOf hm.mem))
    ((hm.heap.take m).map (prioOf hm.mem))
    (by rw [← List.map_append]; exact hperm.map _)
    (List.pairwise_map.mpr a1)
    (by
      intro a ha b hb
      obtain ⟨x, hx, rfl⟩ := List.mem_map.mp ha
      obtain ⟨y, hy, rfl⟩ := List.mem_map.mp hb
      exact a2 x hx y hy)
  rw [List.length_map, hlen] at this
  exact this

/-- C15 at the max-heap `rankedState` with `n = 2`. -/
theorem C15_GetTopNodes_is_top_k_witness :
    rankedState.size = ((3 : Nat) : Int) ∧ LiveOK rankedState.mem rankedState.heap 3 ∧
    MaxHeap rankedState.mem rankedState.heap 3 ∧
    ∃ r s2, GetTopNodes rankedState 2 = .ok (r, s2) ∧ r.1.length = min (2 : Int).toNat 3 ∧
      List.Pairwise (fun a b => b ≤ a) (r.1.map (prioOf rankedState.mem)) ∧
      r.1.map (prioOf rankedState.mem) =
        (((rankedState.heap.take 3).map (prioOf rankedState.mem)).insertionSort
          (fun a b => b ≤ a)).take (min (2 : Int).toNat 3) ∧
      (∃ rest, (r.1 ++ rest).Perm (rankedState.heap.take 3) ∧
        ∀ x ∈ r.1, ∀ y ∈ rest, prioOf rankedState.mem y ≤ prioOf rankedState.mem x) :=
  ⟨rfl, rankedState_live, rankedState_heap,
    C15_GetTopNodes_is_top_k rankedState 3 2 rfl rankedState_live rankedState_heap⟩

theorem prioOf_append (mem : List Node) (x : Node) (p : Ptr) (h : ValidPtr mem p) :
    prioOf (mem ++ [x]) p = prioOf mem p := by
  obtain ⟨a, rfl, ha⟩ := h
  simp only [prioOf, List.get?_eq_getElem?, List.getElem?_append_left ha]

theorem entryOf_append (mem : List Node) (x : Node) (p : Ptr) (h : ValidPtr mem p) :
    entryOf (mem ++ [x]) p = entryOf mem p := by
  obtain ⟨a, rfl, ha⟩ := h
  simp only [entryOf, List.get?_eq_getElem?, List.getElem?_append_left ha]

theorem MaxHeap_append (mem : List Node) (x : Node) (l : List Ptr) (n : Nat)
    (hl : LiveOK mem l n) (h : MaxHeap mem l n) : MaxHeap (mem ++ [x]) l n := by
  intro i c hc hch
  have hi : i < n := by omega
  unfold keyAt
  rw [prioOf_append mem x _ (hl.2 c hc), prioOf_append mem x _ (hl.2 i hi)]
  exact h i c hc hch

/-- C17.  In a state with `m` live valid entries whose live prefix is a max-heap, if
`key` is not in the index map and `size < len(heap) - 1`, then `Insert(key, d)`
succeeds, `size` becomes `m + 1`, the live prefix `heap[0..m+1)` is a max-heap and is
a permutation of the old live prefix plus the pointer to the new record, which holds
`(key, d)`; the records of the old entries are unchanged. -/
theorem C17_Insert_new_key_preserves_heap (hm : heapMap) (m : Nat) (key : String) (d : Int)
    (hs : hm.size = (m : Int)) (hl : LiveOK hm.mem hm.heap m)
    (hh : MaxHeap hm.mem hm.heap m) (hk : hashGet hm.hash key = none)
    (hlt : hm.size < (hm.heap.length : Int) - 1) :
    ∃ s2, Insert hm key d = .ok (none, s2) ∧ s2.size = (m : Int) + 1 ∧
      MaxHeap s2.mem s2.heap (m + 1) ∧
      (s2.heap.take (m + 1)).Perm (some hm.mem.length :: hm.heap.take m) ∧
      entryOf s2.mem (some hm.mem.length) = some (key, d) ∧
      (∀ p ∈ hm.heap.take m, entryOf s2.mem p = entryOf hm.mem p) := by
  have hg : Good hm m := ⟨hs, hl⟩
  have hlt2 : m + 1 < hm.heap.length := by rw [hs] at hlt; omega
  refine ⟨_, Insert_new hm key d m hg hlt2 hk, rfl, ?_, ?_, ?_, ?_⟩
  · exact MaxHeap_insertPure _ _ _ _ (by omega) (MaxHeap_append hm.mem _ hm.heap m hl hh)
  · exact insertPure_perm _ hm.heap m _ (by omega)
  · simp [entryOf]
  · intro p hp
    exact entryOf_append hm.mem _ p (((LiveOK_iff hm.mem hm.heap m).mp hl).2 p hp)

/-- C17 at the max-heap `rankedState` (capacity 5, three live keys) with a new key. -/
theorem C17_Insert_new_key_preserves_heap_witness :
    rankedState.size = ((3 : Nat) : Int) ∧ LiveOK rankedState.mem rankedState.heap 3 ∧
    MaxHeap rankedState.mem rankedState.heap 3 ∧ hashGet rankedState.hash "w" = none ∧
    rankedState.size < (rankedState.heap.length : Int) - 1 ∧
    ∃ s2, Insert rankedState "w" 8 = .ok (none, s2) ∧ s2.size = ((3 : Nat) : Int) + 1 ∧
      MaxHeap s2.mem s2.heap (3 + 1) ∧
      (s2.heap.take (3 + 1)).Perm (some rankedState.mem.length :: rankedState.heap.take 3) ∧
      entryOf s2.mem (some rankedState.mem.length) = some ("w", 8) ∧
      (∀ p ∈ rankedState.heap.take 3, entryOf s2.mem p = entryOf rankedState.mem p) :=
  ⟨rfl, rankedState_live, rankedState_heap, rfl, by decide,
    C17_Insert_new_key_preserves_heap rankedState 3 "w" 8 rfl rankedState_live
      rankedState_heap rfl (by decide)⟩

theorem hashGet_none_iff (hash : List (String × Nat)) (key : String) :
    hashGet hash key = none ↔ key ∉ hash.map Prod.fst := by
  induction hash with
  | nil => simp [hashGet]
  | cons e rest ih =>
    obtain ⟨k, a⟩ := e
    simp only [hashGet, List.map_cons, List.mem_cons, not_or]
    by_cases h : k = key
    · simp [h]
    · have : ¬ key = k := fun e => h e.symm
      simp [h, this, ih]

theorem hashSet_of_absent (hash : List (String × Nat)) (key : String) (a : Nat)
    (h : hashGet hash key = none) : hashSet hash key a = hash ++ [(key, a)] := by
  induction hash with
  | nil => rfl
  | cons e rest ih =>
    obtain ⟨k, b⟩ := e
    simp only [hashGet] at h
    by_cases hk : k = key
    · simp [hk] at h
    · simp only [hk, if_false] at h
      simp only [hashSet, hk, if_false, ih h, List.cons_append]

theorem hashGet_mem (hash : List (String × Nat)) (key : String) (a : Nat)
    (h : hashGet hash key = some a) : (key, a) ∈ hash := by
  induction hash with
  | nil => simp [hashGet] at h
  | cons e rest ih =>
    obtain ⟨k, b⟩ := e
    simp only [hashGet] at h
    by_cases hk : k = key
    · simp only [hk, if_true, Option.some.injEq] at h
      subst hk; subst h
      exact List.mem_cons_self _ _
    · simp only [hk, if_false] at h
      exact List.mem_cons_of_mem _ (ih h)

theorem hashGet_of_mem (hash : List (String × Nat)) (key : String) (a : Nat)
    (hnd : (hash.map Prod.fst).Nodup) (h : (key, a) ∈ hash) : hashGet hash key = some a := by
  induction hash with
  | nil => simp at h
  | cons e rest ih =>
    obtain ⟨k, b⟩ := e
    simp only [List.map_cons, List.nodup_cons] at hnd
    rcases List.mem_cons.mp h with h1 | h1
    · cases h1
      simp [hashGet]
    · have hk : k ≠ key := by
        intro e
        subst e
        exact hnd.1 (List.mem_map.mpr ⟨(k, a), h1, rfl⟩)
      simp only [hashGet, hk, if_false]
      exact ih hnd.2 h1

theorem IndexOK_NewHeapMap (c : Nat) : IndexOK (NewHeapMap c) := by
  simp [IndexOK, NewHeapMap]

theorem IndexOK_Insert (hm : heapMap) (key : String) (d : Int) (h : Inv hm)
    (hi : IndexOK hm) (e : Option Error) (hm2 : heapMap)
    (hr : Insert hm key d = .ok (e, hm2)) : IndexOK hm2 := by
  obtain ⟨⟨n, hg, hn⟩, hh⟩ := h
  obtain ⟨hp, hnd⟩ := hi
  have hsz : hm.size.toNat = n := by rw [hg.1]; simp
  rw [hsz] at hp
  cases hk : hashGet hm.hash key with
  | some a =>
    obtain ⟨node, ha, hkey⟩ := hh key a hk
    rw [Insert_existing hm key d n a node hg hk ha] at hr
    cases hr
    refine ⟨?_, hnd⟩
    simp only [hsz]
    exact (take_siftDown_perm _ _ _ _ _ hg.2.1).trans hp
  | none =>
    by_cases hf : hm.size = (hm.heap.length : Int) - 1
    · rw [Insert_full hm key d hk hf] at hr
      cases hr
      exact ⟨by rw [hsz]; exact hp, hnd⟩
    · have hlt : n + 1 < hm.heap.length := by rw [hg.1] at hf; omega
      rw [Insert_new hm key d n hg hlt hk] at hr
      cases hr
      simp only [IndexOK, hashSet_of_absent _ _ _ hk, List.map_append, List.map_cons,
        List.map_nil]
      have e1 : ((n : Int) + 1).toNat = n + 1 := by omega
      rw [e1]
      refine ⟨?_, ?_⟩
      · refine (insertPure_perm _ hm.heap n _ (by omega)).trans ?_
        exact (List.perm_append_singleton _ _).symm.trans
          (List.Perm.append_right _ hp)
      · rw [List.nodup_append]
        refine ⟨hnd, List.nodup_singleton _, ?_⟩
        intro x hx hx2
        simp only [List.mem_singleton] at hx2
        subst hx2
        exact (hashGet_none_iff hm.hash x).mp hk hx

theorem IndexOK_GetTopNodes (hm : heapMap) (k : Int) (h : Inv hm) (hi : IndexOK hm)
    (r : List Ptr × Option Error) (hm2 : heapMap)
    (hr : GetTopNodes hm k = .ok (r, hm2)) : IndexOK hm2 := by
  obtain ⟨⟨n, hg, hn⟩, hh⟩ := h
  obtain ⟨hp, hnd⟩ := hi
  have hsz : hm.size.toNat = n := by rw [hg.1]; simp
  rw [hsz] at hp
  rw [GetTopNodes_eq hm k n hg] at hr
  cases hr
  refine ⟨?_, hnd⟩
  simp only [hsz]
  exact (topPure_perm hm.mem k.toNat hm.heap n hg.2.1).trans hp

theorem IndexOK_run (ops : List Op) : ∀ (hm : heapMap), Inv hm → IndexOK hm →
    ∃ s, run hm ops = .ok s ∧ Inv s ∧ IndexOK s ∧ s.heap.length = hm.heap.length := by
  induction ops with
  | nil => intro hm h hi; exact ⟨hm, rfl, h, hi, rfl⟩
  | cons op ops ih =>
    intro hm h hi
    cases op with
    | insert key d =>
      obtain ⟨e, hm1, h1, hinv, hlen⟩ := Inv_Insert hm key d h
      obtain ⟨s, hs, a, b, c⟩ := ih hm1 hinv (IndexOK_Insert hm key d h hi e hm1 h1)
      refine ⟨s, ?_, a, b, by omega⟩
      rw [run_cons hm _ ops hm1 (by simp [step, h1, Except.map])]; exact hs
    | getTopNodes n =>
      obtain ⟨r, hm1, h1, hinv, hlen⟩ := Inv_GetTopNodes hm n h
      obtain ⟨s, hs, a, b, c⟩ := ih hm1 hinv (IndexOK_GetTopNodes hm n h hi r hm1 h1)
      refine ⟨s, ?_, a, b, by omega⟩
      rw [run_cons hm _ ops hm1 (by simp [step, h1, Except.map])]; exact hs

theorem mem_take_iff_getD (l : List Ptr) (n : Nat) (hn : n ≤ l.length) (p : Ptr) :
    p ∈ l.take n ↔ ∃ i, i < n ∧ l.getD i none = p := by
  constructor
  · intro hp
    obtain ⟨i, hi, rfl⟩ := List.getElem_of_mem hp
    have hi2 : i < n := by simp at hi; omega
    exact ⟨i, hi2, by
      simp [List.getD_eq_getElem?_getD, List.getElem?_eq_getElem (show i < l.length by omega)]⟩
  · rintro ⟨i, hi, rfl⟩
    have hi3 : i < (l.take n).length := by simp; omega
    have : (l.take n)[i] ∈ l.take n := List.getElem_mem hi3
    simpa [List.getD_eq_getElem?_getD, List.getElem?_eq_getElem (show i < l.length by omega)]
      using this

theorem live_in_index (hm : heapMap) (n : Nat) (hg : Good hm n) (hh : HashOK hm)
    (hi : IndexOK hm) (p : Ptr) (hp : p ∈ hm.heap.take n) :
    ∃ a node, p = some a ∧ hm.mem.get? a = some node ∧
      hashGet hm.hash node.Key = some a := by
  have hsz : hm.size.toNat = n := by rw [hg.1]; simp
  obtain ⟨hperm, hnd⟩ := hi
  rw [hsz] at hperm
  obtain ⟨⟨k, a⟩, hka, rfl⟩ := List.mem_map.mp (hperm.subset hp)
  have hget := hashGet_of_mem hm.hash k a hnd hka
  obtain ⟨node, hn1, hn2⟩ := hh k a hget
  exact ⟨a, node, rfl, hn1, by rw [hn2]; exact hget⟩

theorem live_nodup (hm : heapMap) (n : Nat) (hg : Good hm n) (hh : HashOK hm)
    (hi : IndexOK hm) : (hm.heap.take n).Nodup := by
  have hsz : hm.size.toNat = n := by rw [hg.1]; simp
  obtain ⟨hperm, hnd⟩ := hi
  rw [hsz] at hperm
  rw [hperm.nodup_iff]
  refine List.Nodup.map_on ?_ (List.Nodup.of_map _ hnd)
  rintro ⟨k1, a1⟩ h1 ⟨k2, a2⟩ h2 heq
  simp only [Option.some.injEq] at heq
  subst heq
  have g1 := hashGet_of_mem hm.hash k1 a1 hnd h1
  have g2 := hashGet_of_mem hm.hash k2 a1 hnd h2
  obtain ⟨n1, m1, e1⟩ := hh k1 a1 g1
  obtain ⟨n2, m2, e2⟩ := hh k2 a1 g2
  rw [m1] at m2
  cases m2
  rw [← e1, ← e2]

theorem keyOf_injOn_live (hm : heapMap) (n : Nat) (hg : Good hm n) (hh : HashOK hm)
    (hi : IndexOK hm) (p q : Ptr) (hp : p ∈ hm.heap.take n) (hq : q ∈ hm.heap.take n)
    (he : keyOf hm.mem p = keyOf hm.mem q) : p = q := by
  obtain ⟨a, na, rfl, ha1, ha2⟩ := live_in_index hm n hg hh hi p hp
  obtain ⟨b, nb, rfl, hb1, hb2⟩ := live_in_index hm n hg hh hi q hq
  simp only [keyOf, entryOf, ha1, hb1, Option.map, Option.some.injEq] at he
  rw [he] at ha2
  rw [ha2] at hb2
  exact hb2

theorem run_index (c : Nat) (hc : 1 ≤ c) (ops : List Op) :
    ∃ s, run (NewHeapMap c) ops = .ok s ∧ Inv s ∧ IndexOK s ∧ s.heap.length = c := by
  obtain ⟨s, h1, h2, h3, h4⟩ :=
    IndexOK_run ops (NewHeapMap c) (Inv_NewHeapMap c hc) (IndexOK_NewHeapMap c)
  exact ⟨s, h1, h2, h3, by rw [h4]; simp [NewHeapMap]⟩

/-- C13.  In every state reached from `NewHeapMap(c)`, `c >= 1`, by `Insert` and
`GetTopNodes` calls: a key of the index map has its record in a live slot, and that
slot holds the very pointer the index map holds; every live slot holds a record whose
key is in the index map with that pointer; two live slots never hold the same key;
the index map lists no key twice and `size` is its number of keys. -/
theorem C13_index_and_heap_agree (c : Nat) (hc : 1 ≤ c) (ops : List Op) :
    ∃ s, run (NewHeapMap c) ops = .ok s ∧
      (∀ k a, hashGet s.hash k = some a →
        ∃ i, i < s.size.toNat ∧ s.heap.getD i none = some a ∧
          ∃ node, s.mem.get? a = some node ∧ node.Key = k) ∧
      (∀ i, i < s.size.toNat →
        ∃ a node, s.heap.getD i none = some a ∧ s.mem.get? a = some node ∧
          hashGet s.hash node.Key = some a) ∧
      (∀ i j, i < s.size.toNat → j < s.size.toNat →
        keyOf s.mem (s.heap.getD i none) = keyOf s.mem (s.heap.getD j none) → i = j) ∧
      (s.hash.map Prod.fst).Nodup ∧ s.size = (s.hash.length : Int) := by
  obtain ⟨s, h1, h2, h3, -⟩ := run_index c hc ops
  obtain ⟨n, hg, hn⟩ := h2.1
  have hsz : s.size.toNat = n := by rw [hg.1]; simp
  have hlive := mem_take_iff_getD s.heap n hg.2.1
  have hnd := live_nodup s n hg h2.2 h3
  refine ⟨s, h1, ?_, ?_, ?_, h3.2, ?_⟩
  all_goals try rw [hsz]
  · intro k a hk
    have hm1 : some a ∈ s.hash.map fun e => some e.2 :=
      List.mem_map.mpr ⟨(k, a), hashGet_mem s.hash k a hk, rfl⟩
    have hm2 : some a ∈ s.heap.take n := by
      have := h3.1; rw [hsz] at this; exact this.symm.subset hm1
    obtain ⟨i, hi, he⟩ := (hlive _).mp hm2
    exact ⟨i, hi, he, h2.2 k a hk⟩
  · intro i hi
    obtain ⟨a, node, e1, e2, e3⟩ :=
      live_in_index s n hg h2.2 h3 _ ((hlive _).mpr ⟨i, hi, rfl⟩)
    exact ⟨a, node, e1, e2, e3⟩
  · intro i j hi hj he
    have hpq := keyOf_injOn_live s n hg h2.2 h3 _ _ ((hlive _).mpr ⟨i, hi, rfl⟩)
      ((hlive _).mpr ⟨j, hj, rfl⟩) he
    have hlen := hg.2.1
    have hi2 : i < (s.heap.take n).length := by simp; omega
    have hj2 : j < (s.heap.take n).length := by simp; omega
    have e : (s.heap.take n)[i] = (s.heap.take n)[j] := by
      simpa [List.getD_eq_getElem?_getD,
        List.getElem?_eq_getElem (show i < s.heap.length by omega),
        List.getElem?_eq_getElem (show j < s.heap.length by omega)] using hpq
    exact (List.Nodup.getElem_inj_iff hnd).mp e
  · have := h3.1.length_eq
    rw [hsz] at this
    simp only [List.length_take, List.length_map] at this
    rw [hg.1]
    have := hg.2.1
    omega

/-- C13 at capacity 5 after the run `mixedOps`. -/
theorem C13_index_and_heap_agree_witness :
    1 ≤ 5 ∧
    ∃ s, run (NewHeapMap 5) mixedOps = .ok s ∧
      (∀ k a, hashGet s.hash k = some a →
        ∃ i, i < s.size.toNat ∧ s.heap.getD i none = some a ∧
          ∃ node, s.mem.get? a = some node ∧ node.Key = k) ∧
      (∀ i, i < s.size.toNat →
        ∃ a node, s.heap.getD i none = some a ∧ s.mem.get? a = some node ∧
          hashGet s.hash node.Key = some a) ∧
      (∀ i j, i < s.size.toNat → j < s.size.toNat →
        keyOf s.mem (s.heap.getD i none) = keyOf s.mem (s.heap.getD j none) → i = j) ∧
      (s.hash.map Prod.fst).Nodup ∧ s.size = (s.hash.length : Int) :=
  ⟨by decide, C13_index_and_heap_agree 5 (by decide) mixedOps⟩

/-- C16.  In every state reached from `NewHeapMap(c)`, `c >= 1`, and for every integer
`n`, `GetTopNodes(n)` returns exactly `min(max(n, 0), size)` entries; no pointer and
no key occurs twice among them, and each is a record whose key is in the index map
(with that same pointer). -/
theorem C16_GetTopNodes_length_and_keys (c : Nat) (hc : 1 ≤ c) (ops : List Op) :
    ∃ s, run (NewHeapMap c) ops = .ok s ∧
      ∀ n : Int, ∃ r s2, GetTopNodes s n = .ok (r, s2) ∧
        (r.1.length : Int) = min (max n 0) s.size ∧
        r.1.Nodup ∧ (r.1.map (keyOf s.mem)).Nodup ∧
        ∀ p ∈ r.1, ∃ a node, p = some a ∧ s.mem.get? a = some node ∧
          hashGet s.hash node.Key = some a := by
  obtain ⟨s, h1, h2, h3, -⟩ := run_index c hc ops
  obtain ⟨m, hg, hm⟩ := h2.1
  refine ⟨s, h1, fun n => ?_⟩
  have hsub := popsPure_subset s.mem n.toNat s.heap m hg.2.1
  have hnd : (popsPure s.mem n.toNat s.heap m).1.Nodup :=
    List.Nodup.of_append_left
      ((popsPure_perm s.mem n.toNat s.heap m hg.2.1).nodup_iff.mpr
        (live_nodup s m hg h2.2 h3))
  refine ⟨_, _, GetTopNodes_eq s n m hg, ?_, hnd, ?_, ?_⟩
  · simp only [(popsPure_length s.mem n.toNat s.heap m).1, hg.1]
    omega
  · exact List.Nodup.map_on
      (fun p hp q hq he => keyOf_injOn_live s m hg h2.2 h3 p q (hsub p hp) (hsub q hq) he) hnd
  · intro p hp
    exact live_in_index s m hg h2.2 h3 p (hsub p hp)

/-- C16 at capacity 5 after the run `mixedOps`. -/
theorem C16_GetTopNodes_length_and_keys_witness :
    1 ≤ 5 ∧
    ∃ s, run (NewHeapMap 5) mixedOps = .ok s ∧
      ∀ n : Int, ∃ r s2, GetTopNodes s n = .ok (r, s2) ∧
        (r.1.length : Int) = min (max n 0) s.size ∧
        r.1.Nodup ∧ (r.1.map (keyOf s.mem)).Nodup ∧
        ∀ p ∈ r.1, ∃ a node, p = some a ∧ s.mem.get? a = some node ∧
          hashGet s.hash node.Key = some a :=
  ⟨by decide, C16_GetTopNodes_length_and_keys 5 (by decide) mixedOps⟩

theorem Top_ok (hm : heapMap) (h : Inv hm) : ∃ r, Top hm = .ok r := by
  obtain ⟨⟨n, hg, hn⟩, -⟩ := h
  unfold Top
  by_cases h0 : hm.size = 0
  · rw [if_pos h0]; exact ⟨_, rfl⟩
  · rw [if_neg h0]
    have := heapGet_ok hm.heap 0 (by omega)
    simp only [Nat.cast_zero] at this
    rw [this]
    exact ⟨_, rfl⟩

theorem GetPriority_ok (hm : heapMap) (key : String) (h : Inv hm) :
    ∃ r, GetPriority hm key = .ok r := by
  rw [GetPriority_eq hm key h.2]
  cases priorityOf hm key with
  | none => exact ⟨_, rfl⟩
  | some v => exact ⟨_, rfl⟩

theorem Inv_stepCall (hm : heapMap) (call : Call) (h : Inv hm) :
    ∃ hm2, stepCall hm call = .ok hm2 ∧ Inv hm2 ∧ hm2.heap.length = hm.heap.length := by
  cases call with
  | insert key priority =>
    obtain ⟨e, hm2, h1, h2, h3⟩ := Inv_Insert hm key priority h
    exact ⟨hm2, by simp [stepCall, h1, Except.map], h2, h3⟩
  | getTopNodes n =>
    obtain ⟨e, hm2, h1, h2, h3⟩ := Inv_GetTopNodes hm n h
    exact ⟨hm2, by simp [stepCall, h1, Except.map], h2, h3⟩
  | top =>
    obtain ⟨r, hr⟩ := Top_ok hm h
    exact ⟨hm, by simp [stepCall, hr, Except.map], h, rfl⟩
  | getPriority key =>
    obtain ⟨r, hr⟩ := GetPriority_ok hm key h
    exact ⟨hm, by simp [stepCall, hr, Except.map], h, rfl⟩

theorem Inv_runCalls (calls : List Call) : ∀ (hm : heapMap), Inv hm →
    ∃ hm2, runCalls hm calls = .ok hm2 ∧ Inv hm2 ∧ hm2.heap.length = hm.heap.length := by
  induction calls with
  | nil => intro hm h; exact ⟨hm, rfl, h, rfl⟩
  | cons call calls ih =>
    intro hm h
    obtain ⟨hm1, h1, h2, h3⟩ := Inv_stepCall hm call h
    obtain ⟨hm2, h4, h5, h6⟩ := ih hm1 h2
    refine ⟨hm2, ?_, h5, by omega⟩
    simp only [runCalls, List.foldlM_cons, h1, bind, Except.bind]
    exact h4

theorem goDiv_bounds (cur : Int) (h : 0 ≤ cur) :
    0 ≤ goDiv (cur - 1) 2 ∧ goDiv (cur - 1) 2 ≤ cur ∧ (0 < cur → goDiv (cur - 1) 2 < cur) := by
  obtain ⟨n, rfl⟩ := Int.eq_ofNat_of_zero_le h
  rw [goDiv_parent]
  omega

/-- C19.  For `c >= 1`, no call in any sequence of `Insert`, `GetTopNodes`, `Top` and
`GetPriority` calls on `NewHeapMap(c)` panics: the run returns a state (an index out
of `[0, c)`, a nil dereference or a loop that does not stop would make it a fault),
and in that state `len(heap) = c`, `0 <= size <= c - 1`, the live slots hold non-nil
pointers to allocated records, and every next call returns as well.  The parent index
`(cur - 1) / 2` of `insert` is never negative for `cur >= 0`, is `0` at the root and
is below `cur` elsewhere. -/
theorem C19_no_panic_and_bounds (c : Nat) (hc : 1 ≤ c) (calls : List Call) :
    ∃ s, runCalls (NewHeapMap c) calls = .ok s ∧ s.heap.length = c ∧
      0 ≤ s.size ∧ s.size ≤ (c : Int) - 1 ∧
      (∀ i : Nat, (i : Int) < s.size →
        ∃ a, heapGet s.heap i = .ok (some a) ∧ a < s.mem.length) ∧
      (∀ call, ∃ s2, stepCall s call = .ok s2) ∧
      (∀ cur : Int, 0 ≤ cur →
        0 ≤ goDiv (cur - 1) 2 ∧ goDiv (cur - 1) 2 ≤ cur ∧ (0 < cur → goDiv (cur - 1) 2 < cur)) := by
  obtain ⟨s, h1, h2, h3⟩ := Inv_runCalls calls (NewHeapMap c) (Inv_NewHeapMap c hc)
  have hlen : s.heap.length = c := by rw [h3]; simp [NewHeapMap]
  obtain ⟨n, hg, hn⟩ := h2.1
  refine ⟨s, h1, hlen, by rw [hg.1]; omega, by rw [hg.1]; omega, ?_, ?_, goDiv_bounds⟩
  · intro i hi
    have hi2 : i < n := by rw [hg.1] at hi; omega
    obtain ⟨a, ha, ha2⟩ := hg.2.2 i hi2
    exact ⟨a, by rw [heapGet_ok s.heap i (by omega), ha], ha2⟩
  · intro call
    obtain ⟨s2, e, -, -⟩ := Inv_stepCall s call h2
    exact ⟨s2, e⟩

/-- C19 at capacity 3 on the run `probeCalls`. -/
theorem C19_no_panic_and_bounds_witness :
    1 ≤ 3 ∧
    ∃ s, runCalls (NewHeapMap 3) probeCalls = .ok s ∧ s.heap.length = 3 ∧
      0 ≤ s.size ∧ s.size ≤ ((3 : Nat) : Int) - 1 ∧
      (∀ i : Nat, (i : Int) < s.size →
        ∃ a, heapGet s.heap i = .ok (some a) ∧ a < s.mem.length) ∧
      (∀ call, ∃ s2, stepCall s call = .ok s2) ∧
      (∀ cur : Int, 0 ≤ cur →
        0 ≤ goDiv (cur - 1) 2 ∧ goDiv (cur - 1) 2 ≤ cur ∧ (0 < cur → goDiv (cur - 1) 2 < cur)) :=
  ⟨by decide, C19_no_panic_and_bounds 3 (by decide) probeCalls⟩

theorem InSubtree_le (r i : Nat) (h : InSubtree r i) : r ≤ i := by
  induction h with
  | root => exact le_refl _
  | left _ ih => omega
  | right _ ih => omega

theorem InSubtree_cases (r i : Nat) (h : InSubtree r i) :
    i = r ∨ InSubtree (2 * r + 1) i ∨ InSubtree (2 * r + 2) i := by
  induction h with
  | root => exact Or.inl rfl
  | left _ ih =>
    rcases ih with rfl | h1 | h1
    · exact Or.inr (Or.inl .root)
    · exact Or.inr (Or.inl (.left h1))
    · exact Or.inr (Or.inr (.left h1))
  | right _ ih =>
    rcases ih with rfl | h1 | h1
    · exact Or.inr (Or.inr .root)
    · exact Or.inr (Or.inl (.right h1))
    · exact Or.inr (Or.inr (.right h1))

theorem InSubtree_of_left (r i : Nat) (h : InSubtree (2 * r + 1) i) : InSubtree r i := by
  induction h with
  | root => exact .left .root
  | left _ ih => exact .left ih
  | right _ ih => exact .right ih

theorem InSubtree_of_right (r i : Nat) (h : InSubtree (2 * r + 2) i) : InSubtree r i := by
  induction h with
  | root => exact .right .root
  | left _ ih => exact .left ih
  | right _ ih => exact .right ih

theorem siftDown_frame (mem : List Node) : ∀ (fuel : Nat) (l : List Ptr) (pos max k : Nat),
    max ≤ l.length → ¬ InSubtree pos k →
    (siftDown mem fuel l pos max).getD k none = l.getD k none := by
  intro fuel
  induction fuel with
  | zero => intro l pos max k _ _; rfl
  | succ fuel ih =>
    intro l pos max k hm hk
    rw [siftDown_succ]
    split
    · rename_i m hpick
      obtain ⟨hm1, hm2, -⟩ := pickChild_some mem l pos max m hpick
      have hkm : ¬ InSubtree m k := by
        intro h
        rcases hm1 with rfl | rfl
        · exact hk (InSubtree_of_left pos k h)
        · exact hk (InSubtree_of_right pos k h)
      have hkp : k ≠ pos := fun e => hk (e ▸ .root)
      have hkm2 : k ≠ m := fun e => hkm (e ▸ .root)
      rw [ih (swapN l pos m) m max k (by rw [length_swapN]; exact hm) hkm]
      rw [getD_swapN l pos m k (by omega) (by omega), if_neg hkm2, if_neg hkp]
    · rfl

theorem siftDown_perm_all (mem : List Node) : ∀ (fuel : Nat) (l : List Ptr) (pos max : Nat),
    max ≤ l.length → (siftDown mem fuel l pos max).Perm l := by
  intro fuel
  induction fuel with
  | zero => intro l pos max _; exact List.Perm.refl _
  | succ fuel ih =>
    intro l pos max hm
    rw [siftDown_succ]
    split
    · rename_i m hpick
      obtain ⟨hm1, hm2, -⟩ := pickChild_some mem l pos max m hpick
      exact (ih (swapN l pos m) m max (by rw [length_swapN]; exact hm)).trans
        (swapN_perm l pos m (by omega) (by omega))
    · exact List.Perm.refl _

theorem adjustHeap_eq_at (hm : heapMap) (pos max : Nat) (hl : LiveOK hm.mem hm.heap max) :
    adjustHeap hm (pos : Int) (max : Int) =
      .ok { hm with heap := siftDown hm.mem (max + 1) hm.heap pos max } := by
  unfold adjustHeap
  have := adjustHeapAux_eq hm.mem (max + 1) hm.heap pos max hl (by omega)
  simp only [Int.toNat_ofNat, this, bind, Except.bind, pure, Except.pure]

theorem pickChild_tie (mem : List Node) (l : List Ptr) (pos max : Nat)
    (h2 : 2 * pos + 2 < max)
    (he : keyAt mem l (2 * pos + 1) = keyAt mem l (2 * pos + 2))
    (hgt : keyAt mem l pos < keyAt mem l (2 * pos + 2)) :
    pickChild mem l pos max = some (2 * pos + 2) := by
  unfold pickChild
  rw [if_pos h2, if_neg (by omega), if_pos (by omega)]

theorem tiedChildrenState_live : LiveOK tiedChildrenState.mem tiedChildrenState.heap 3 := by
  refine ⟨by decide, fun i hi => ?_⟩
  have : i = 0 ∨ i = 1 ∨ i = 2 := by omega
  rcases this with rfl | rfl | rfl
  · exact ⟨0, rfl, by decide⟩
  · exact ⟨1, rfl, by decide⟩
  · exact ⟨2, rfl, by decide⟩

theorem SubHeap_leaf (mem : List Node) (l : List Ptr) (max r : Nat) (h : max ≤ 2 * r + 1) :
    SubHeap mem l max r := by
  intro i c hi hc hch
  have := InSubtree_le r i hi
  omega

/-- C20.  Let the slots below `max <= len(heap)` hold valid entries, `pos < max`, and
let the subtrees rooted at `2*pos+1` and `2*pos+2` (over the slots below `max`) be
max-heaps.  Then `adjustHeap(pos, max)` returns, changes only the heap array, and
afterwards: the subtree rooted at `pos` is a max-heap; the array is a permutation of
the old one in which every slot outside that subtree, and every slot from `max` on,
is unchanged; and if both children exist with equal priority greater than the
parent's, slot `pos` holds the old right child and the left child has not moved. -/
theorem C20_adjustHeap_sifts_down (hm : heapMap) (pos max : Nat)
    (hl : LiveOK hm.mem hm.heap max) (hpos : pos < max)
    (h1 : SubHeap hm.mem hm.heap max (2 * pos + 1))
    (h2 : SubHeap hm.mem hm.heap max (2 * pos + 2)) :
    ∃ s2, adjustHeap hm (pos : Int) (max : Int) = .ok s2 ∧
      s2.mem = hm.mem ∧ s2.hash = hm.hash ∧ s2.size = hm.size ∧
      SubHeap s2.mem s2.heap max pos ∧
      s2.heap.Perm hm.heap ∧
      (∀ k, ¬ InSubtree pos k → s2.heap.getD k none = hm.heap.getD k none) ∧
      (∀ k, max ≤ k → s2.heap.getD k none = hm.heap.getD k none) ∧
      (2 * pos + 2 < max →
        keyAt hm.mem hm.heap (2 * pos + 1) = keyAt hm.mem hm.heap (2 * pos + 2) →
        keyAt hm.mem hm.heap pos < keyAt hm.mem hm.heap (2 * pos + 2) →
        s2.heap.getD pos none = hm.heap.getD (2 * pos + 2) none ∧
        s2.heap.getD (2 * pos + 1) none = hm.heap.getD (2 * pos + 1) none) := by
  refine ⟨_, adjustHeap_eq_at hm pos max hl, rfl, rfl, rfl, ?_, ?_, ?_, ?_, ?_⟩
  · intro i c hi hc hch
    refine siftDown_heap hm.mem (InSubtree pos) (fun i hi => ⟨.left hi, .right hi⟩)
      (max + 1) hm.heap pos max hl.1 (by omega) .root ?_ ?_ i c hi hc hch
    · intro i c hi hne hc hch
      rcases InSubtree_cases pos i hi with e | e | e
      · exact absurd e hne
      · exact h1 i c e hc hch
      · exact h2 i c e hc hch
    · intro i c hi hp
      have := InSubtree_le pos i hi
      omega
  · exact siftDown_perm_all hm.mem (max + 1) hm.heap pos max hl.1
  · intro k hk
    exact siftDown_frame hm.mem (max + 1) hm.heap pos max k hl.1 hk
  · intro k hk
    exact getD_siftDown_ge hm.mem (max + 1) hm.heap pos max k hl.1 hk
  · intro hr he hgt
    have hp := pickChild_tie hm.mem hm.heap pos max hr he hgt
    have e : siftDown hm.mem (max + 1) hm.heap pos max =
        siftDown hm.mem max (swapN hm.heap pos (2 * pos + 2)) (2 * pos + 2) max := by
      rw [siftDown_succ, hp]
    have hlen := hl.1
    have n1 : ¬ InSubtree (2 * pos + 2) pos := fun h => by
      have := InSubtree_le _ _ h; omega
    have n2 : ¬ InSubtree (2 * pos + 2) (2 * pos + 1) := fun h => by
      have := InSubtree_le _ _ h; omega
    simp only [e]
    rw [siftDown_frame hm.mem max _ (2 * pos + 2) max pos
        (by rw [length_swapN]; exact hlen) n1,
      siftDown_frame hm.mem max _ (2 * pos + 2) max (2 * pos + 1)
        (by rw [length_swapN]; exact hlen) n2,
      getD_swapN hm.heap pos (2 * pos + 2) pos (by omega) (by omega),
      getD_swapN hm.heap pos (2 * pos + 2) (2 * pos + 1) (by omega) (by omega),
      if_neg (by omega), if_pos rfl, if_neg (by omega), if_neg (by omega)]
    exact ⟨rfl, rfl⟩

/-- C20 at `tiedChildrenState`, `pos = 0`, `max = 3`: both children are leaves. -/
theorem C20_adjustHeap_sifts_down_witness :
    LiveOK tiedChildrenState.mem tiedChildrenState.heap 3 ∧ 0 < 3 ∧
    SubHeap tiedChildrenState.mem tiedChildrenState.heap 3 (2 * 0 + 1) ∧
    SubHeap tiedChildrenState.mem tiedChildrenState.heap 3 (2 * 0 + 2) ∧
    ∃ s2, adjustHeap tiedChildrenState ((0 : Nat) : Int) ((3 : Nat) : Int) = .ok s2 ∧
      s2.mem = tiedChildrenState.mem ∧ s2.hash = tiedChildrenState.hash ∧
      s2.size = tiedChildrenState.size ∧
      SubHeap s2.mem s2.heap 3 0 ∧
      s2.heap.Perm tiedChildrenState.heap ∧
      (∀ k, ¬ InSubtree 0 k → s2.heap.getD k none = tiedChildrenState.heap.getD k none) ∧
      (∀ k, 3 ≤ k → s2.heap.getD k none = tiedChildrenState.heap.getD k none) ∧
      (2 * 0 + 2 < 3 →
        keyAt tiedChildrenState.mem tiedChildrenState.heap (2 * 0 + 1) =
          keyAt tiedChildrenState.mem tiedChildrenState.heap (2 * 0 + 2) →
        keyAt tiedChildrenState.mem tiedChildrenState.heap 0 <
          keyAt tiedChildrenState.mem tiedChildrenState.heap (2 * 0 + 2) →
        s2.heap.getD 0 none = tiedChildrenState.heap.getD (2 * 0 + 2) none ∧
        s2.heap.getD (2 * 0 + 1) none = tiedChildrenState.heap.getD (2 * 0 + 1) none) :=
  ⟨tiedChildrenState_live, by decide, SubHeap_leaf _ _ 3 1 (by decide),
    SubHeap_leaf _ _ 3 2 (by decide),
    C20_adjustHeap_sifts_down tiedChildrenState 0 3 tiedChildrenState_live (by decide)
      (SubHeap_leaf _ _ 3 1 (by decide)) (SubHeap_leaf _ _ 3 2 (by decide))⟩

end heapmap
